import Mathlib

/-!
# Verification of the ETL-Studio workflow compiler

A shallow embedding, in Lean 4, of the core of the repository
(`src/server.py`, `src/optimizer.py`, `src/validator.py`): the graph
model and its topological ordering, the optimizer passes, identifier
assignment, the signature-based differential validator, the join/sample
fragments of the three code generators, and the pandas ground-truth
interpreter.  Python dicts are modelled as insertion-ordered association
lists; Python `or`-defaulting on falsy values is modelled explicitly;
fallible library calls (pandas, file system) are oracles returning
`Option`.  Machine behaviour claimed about the system is then proved or
refuted against these definitions.
-/

namespace ETL

/-! ## Insertion-ordered dictionaries (the Python `dict` model)

A Python dict keeps keys in insertion order; writing to an existing key
keeps its position, writing a fresh key appends it.  `dget` is `d.get(k,
default)`, `dset` is `d[k] = v`. -/

def dget {β : Type} : List (String × β) → String → β → β
  | [], _, dflt => dflt
  | (k', v') :: rest, k, dflt => if k' = k then v' else dget rest k dflt

def dset {β : Type} : List (String × β) → String → β → List (String × β)
  | [], k, v => [(k, v)]
  | (k', v') :: rest, k, v =>
      if k' = k then (k, v) :: rest else (k', v') :: dset rest k v

def dkeys {β : Type} (d : List (String × β)) : List String := d.map Prod.fst

/-! ## Python string helpers -/

/-- Python truthy-`or` on strings: the empty string is falsy. -/
def pyOr (s dflt : String) : String := if s = "" then dflt else s

/-- Python truthy-`or` on numbers: `0` is falsy (`int(n or 100)`). -/
def pyOrNat (n dflt : Nat) : Nat := if n = 0 then dflt else n

/-- Python `str.strip()`: remove leading and trailing whitespace. -/
def pyStrip (s : String) : String :=
  String.mk (((s.toList.dropWhile Char.isWhitespace).reverse.dropWhile
    Char.isWhitespace).reverse)

/-- Python `str.strip("_")`: remove leading and trailing underscores. -/
def stripUnderscores (s : String) : String :=
  String.mk (((s.toList.dropWhile (· = '_')).reverse.dropWhile
    (· = '_')).reverse)

/-- Python `s.split(sep)` for a one-character separator (e.g.
`"a,b".split(",") = ["a","b"]`, `"".split(",") = [""]`,
`",".split(",") = ["",""]`), written structurally so it reduces in the
kernel. -/
def splitChar (sep : Char) (s : String) : List String :=
  (s.toList.foldr (fun c (acc : List (List Char)) =>
    if c = sep then [] :: acc
    else
      match acc with
      | g :: rest => (c :: g) :: rest
      | [] => [[c]]) [[]]).map (fun g => String.mk g)

/-- `[c.strip() for c in s.split(",") if c.strip()]` — the comma-list
parsing used for select columns, group-by lists and join keys. -/
def splitCommaClean (s : String) : List String :=
  ((splitChar ',' s).map pyStrip).filter (· ≠ "")

/-- Python `str.isalnum()`: true on a nonempty all-alphanumeric string. -/
def pyIsalnum (s : String) : Bool :=
  s ≠ "" && s.toList.all Char.isAlphanum

/-- Python `str.lower()` (ASCII fragment). -/
def pyLower (s : String) : String := String.mk (s.toList.map Char.toLower)

/-! ## Differential validator (`df_signature` / `compare_signatures`,
`src/server.py` lines 157–174)

`df_signature` computes `{columns, dtypes, rows, sample_md5}`; the hash
of the 200-row sample is opaque here, the record below is the
signature's value. -/

structure Signature where
  columns : List String
  dtypes : List String
  rows : Nat
  sample_md5 : String
deriving DecidableEq, Repr

/-- `compare_signatures(a, b)` from `src/server.py`: sequential checks on
columns, then row count, then sample hash; the `dtypes` field is never
consulted.  Messages carry the differing values via `toString` where the
Python f-string interpolates `repr`. -/
def compare_signatures (a b : Signature) : Bool × String :=
  if a.columns ≠ b.columns then
    (false, "Columns differ. A: " ++ toString a.columns ++ " B: " ++
      toString b.columns)
  else if a.rows ≠ b.rows then
    (false, "Row count differs. A=" ++ toString a.rows ++ " B=" ++
      toString b.rows)
  else if a.sample_md5 ≠ b.sample_md5 then
    (false, "Sample hash differs (first rows content mismatch).")
  else
    (true, "Match.")

/-- The reason the claim predicts: the first failing dimension in the
order columns, rows, sample hash, with a match message otherwise.
Stated from the claim's words, to be compared with what
`compare_signatures` returns. -/
def claimFirstFailReason (a b : Signature) : String :=
  if a.columns ≠ b.columns then
    "Columns differ. A: " ++ toString a.columns ++ " B: " ++
      toString b.columns
  else if a.rows ≠ b.rows then
    "Row count differs. A=" ++ toString a.rows ++ " B=" ++ toString b.rows
  else if a.sample_md5 ≠ b.sample_md5 then
    "Sample hash differs (first rows content mismatch)."
  else "Match."

/-- `compare_meta(a, b)` from `src/validator.py` (shape-level comparison;
unlike `compare_signatures` its `exact_match` does include dtypes). -/
structure FrameMeta where
  rows : Nat
  columns : List String
  dtypes : List String
deriving DecidableEq, Repr

def compare_meta (a b : FrameMeta) : Bool × Bool × Bool × Bool :=
  (a.rows == b.rows, a.columns == b.columns, a.dtypes == b.dtypes,
   a.rows == b.rows && a.columns == b.columns && a.dtypes == b.dtypes)

/-! ## Identifier assignment (`friendly_name`, `src/server.py` lines
123–127) -/

/-- The base identifier: `(label or "node").lower()`, each
non-alphanumeric character mapped to `_`, then `.strip("_") or "node"`. -/
def friendlyBase (label : Option String) : String :=
  let base := pyLower (pyOr (label.getD "") "node")
  let repl := String.mk (base.toList.map fun c =>
    if c.isAlphanum then c else '_')
  pyOr (stripUnderscores repl) "node"

/-- `friendly_name(label, counts)`: bump the count of the base name and
suffix `_k` from the second occurrence on.  Returns the identifier and
the updated counts dict. -/
def friendly_name (label : Option String) (counts : List (String × Nat)) :
    String × List (String × Nat) :=
  let base := friendlyBase label
  let c := dget counts base 0 + 1
  let counts' := dset counts base c
  (if c = 1 then base else base ++ "_" ++ toString c, counts')

/-- Identifier assignment over a whole graph: the node labels in
(topological) visiting order, one `friendly_name` call each, threading
the counts dict — exactly the comprehension
`{nid: friendly_name(id2[nid].data.label, counts) for nid in order}`. -/
def assignNames (labels : List (Option String)) : List String :=
  (labels.foldl
    (fun (acc : List String × List (String × Nat)) lb =>
      let r := friendly_name lb acc.2
      (acc.1 ++ [r.1], r.2))
    ([], [])).1

/-- The recursion `assignNames`'s fold performs, with the counts dict
explicit — used to reason about the fold position by position. -/
def assignGo (counts : List (String × Nat)) :
    List (Option String) → List String
  | [] => []
  | lb :: rest =>
      let r := friendly_name lb counts
      r.1 :: assignGo r.2 rest

/-- Modelled from the spec: the claim's reading of the base computation,
in which every non-alphanumeric *run* collapses to a single underscore
("replaces every non-alphanumeric run with a single underscore").  To be
compared with `friendlyBase`. -/
def specCollapseBase (label : Option String) : String :=
  let base := pyLower (pyOr (label.getD "") "node")
  let collapsed := String.mk ((base.toList.foldl
    (fun (acc : List Char × Bool) c =>
      if c.isAlphanum then (acc.1 ++ [c], false)
      else if acc.2 then acc else (acc.1 ++ ['_'], true))
    ([], false)).1)
  pyOr (stripUnderscores collapsed) "node"

/-- The claim's per-position description of `assignNames`: position `i`
gets the base of label `i`; the `k`-th occurrence of a base (counted over
positions `0..i`) gets the suffix `_k` from `k = 2` on. -/
def specNameAt (labels : List (Option String)) (i : Nat) : String :=
  let b := friendlyBase (labels.getD i none)
  let k := ((labels.take (i + 1)).filter
    (fun l => friendlyBase l = b)).length
  if k = 1 then b else b ++ "_" ++ toString k

/-! ## Join-key lowering (`gen_sql` lines 492–517, `gen_spark` lines
625–645, `gen_python` lines 368–377 of `src/server.py`) -/

/-- `c.replace("_", "")` — drop every underscore. -/
def dropUnderscores (c : String) : String :=
  String.mk (c.toList.filter (· ≠ '_'))

/-- `c.replace('"', '""')` — double every double quote. -/
def doubleQuotes (c : String) : String :=
  String.mk (c.toList.foldr
    (fun ch acc => if ch = '"' then '"' :: '"' :: acc else ch :: acc) [])

/-- `quote_ident(col)` from `src/server.py`: an identifier that is
alphanumeric-with-underscores and does not start with a digit passes
through, anything else is double-quoted with embedded quotes doubled.
(Python's `"".isalnum()` is false, so e.g. `"_"` is quoted.) -/
def quote_ident (c : String) : String :=
  if pyIsalnum (dropUnderscores c) && !(c.toList.headD 'x').isDigit then c
  else "\"" ++ doubleQuotes c ++ "\""

/-- The key lists the join lowering of `gen_sql` builds:
`[quote_ident(c.strip()) for c in (keys or "id").split(",") if c.strip()]`. -/
def sqlJoinKeys (keys : String) : List String :=
  (splitCommaClean (pyOr keys "id")).map quote_ident

/-- The `ON` expression `gen_sql` emits for `transform.join`:
`" AND ".join(f"lk[i] = rk[i if i < len(rk) else 0]" for i in range(len(lk)))`.
The out-of-range read `rk[0]` on an empty `rk` raises in Python; here it
yields `""`, so statements about this function assume a nonempty right
list. -/
def sqlOnExpr (left_on right_on : String) : String :=
  let lk := sqlJoinKeys left_on
  let rk := sqlJoinKeys right_on
  String.intercalate " AND " ((List.range lk.length).map fun i =>
    lk.getD i "" ++ " = " ++ rk.getD (if i < rk.length then i else 0) "")

/-- The join condition `gen_spark` emits:
`" & ".join(f"ps0.lk[i] == ps1.rk[i if i < len(rk) else 0]" ...)` over the
stripped (unquoted) key lists; `pl`/`pr` are the parent variable names. -/
def sparkJoinCond (pl pr left_on right_on : String) : String :=
  let lk := splitCommaClean (pyOr left_on "id")
  let rk := splitCommaClean (pyOr right_on "id")
  String.intercalate " & " ((List.range lk.length).map fun i =>
    pl ++ "." ++ lk.getD i "" ++ " == " ++ pr ++ "." ++
      rk.getD (if i < rk.length then i else 0) "")

/-- The key lists `gen_python` passes to `DataFrame.merge`: both are
forwarded **unchanged** (`left_on=Lk, right_on=Rk`, a lone key as a
scalar) — no index arithmetic at all. -/
def genPythonMergeKeys (left_on right_on : String) :
    List String × List String :=
  (splitCommaClean (pyOr left_on "id"), splitCommaClean (pyOr right_on "id"))

/-- Models the key binding pandas `DataFrame.merge` performs on the
`left_on`/`right_on` lists the generated Python hands it: equal-length
lists are zipped pairwise; a length mismatch raises
(`ValueError: len(right_on) must equal len(left_on)`), modelled as
`none`. -/
def pandasMergeKeyPairs (lk rk : List String) :
    Option (List (String × String)) :=
  if lk.length = rk.length then some (lk.zip rk) else none

/-- Modelled from the spec: "pairwise-zipped key lists; if the right-key
list is shorter than the left, indices beyond its length wrap to its
first element" — the right list padded with its head, zipped against the
left list. -/
def specWrapPairs (lk rk : List String) : List (String × String) :=
  lk.zip (rk ++ List.replicate (lk.length - rk.length) (rk.headD ""))

/-! ## Sample-node semantics (`exec_workflow_pandas` lines 807–818,
`gen_python` lines 359–366, `gen_spark` lines 615–623, `gen_sql` lines
479–490 of `src/server.py`) -/

/-- Models the row count of pandas `DataFrame.sample(n=k)` on a frame of
`rows` rows: exactly `k` rows when `k ≤ rows`, otherwise the call raises
(`ValueError: Cannot take a larger sample than population`), modelled as
`none`. -/
def pandasSampleRowCount (k rows : Nat) : Option Nat :=
  if k ≤ rows then some k else none

/-- Row count of the interpreter's `mode=rows` sample:
`ps[0].sample(n=min(N, len(ps[0])))` with `N = int(n or 100)`. -/
def interpSampleRowCount (nField rows : Nat) : Option Nat :=
  pandasSampleRowCount (min (pyOrNat nField 100) rows) rows

/-- Row count of the statement `gen_python` emits for `mode=rows`:
`.sample(n=N, random_state=None)` — no clamping by the input length. -/
def pythonLoweredSampleRowCount (nField rows : Nat) : Option Nat :=
  pandasSampleRowCount (pyOrNat nField 100) rows

/-- Models the row count of Spark `DataFrame.limit(k)`: `min k rows`. -/
def sparkLimitRowCount (k rows : Nat) : Nat := min k rows

/-- Row count of the statements `gen_spark` emits for `mode=rows`:
`__cnt = df.count()` then `.limit(min(N, __cnt))`. -/
def sparkLoweredSampleRowCount (nField rows : Nat) : Nat :=
  sparkLimitRowCount (min (pyOrNat nField 100) rows) rows

/-- Modelled from the spec: the row count of the DuckDB clause
`USING SAMPLE N ROWS` that `gen_sql` emits — "`mode=rows` → exactly
`min(n, available row count)` rows" (reservoir sampling returns the whole
input when it is smaller than the requested size). -/
def duckdbSampleRowCount (nField rows : Nat) : Nat :=
  min (pyOrNat nField 100) rows

/-! ## Topological ordering (`_topo`, `src/optimizer.py` lines 8–23 and
`topo_sort`, `src/server.py` lines 99–116)

Both functions are Kahn's algorithm over two dicts `inc` (in-degree
counters, `Int` because Python decrements past zero on degenerate
inputs) and `outs` (successor lists), with a FIFO ready queue and a
fallback to the caller's node order when the output misses a node.  The
`while` loop is given as structural recursion on a fuel argument; each
iteration strictly decreases `q.length + posCount inc` (proved below),
so the fuel chosen at the call sites is never exhausted. -/

abbrev IncMap := List (String × Int)
abbrev OutsMap := List (String × List String)

def posVal (v : Int) : Nat := if 0 < v then 1 else 0

def posCount (inc : IncMap) : Nat := (inc.filter (fun p => 0 < p.2)).length

/-- One `inc[t] -= 1; if inc[t] == 0: q.append(t)` step of the loop body. -/
def relaxOne (acc : IncMap × List String) (t : String) :
    IncMap × List String :=
  let v := dget acc.1 t 0 - 1
  let inc := dset acc.1 t v
  if v = 0 then (inc, acc.2 ++ [t]) else (inc, acc.2)

/-- The `while q:` loop: pop the queue's front, append it to the output,
relax its successors.  The source's dicts guarantee termination; the
fuel stands for that argument and is never exhausted at the call sites
(`kahnMeasure_decreases` below). -/
def kahnRun (outs : OutsMap) : Nat → IncMap → List String → List String
  | 0, _, _ => []
  | _ + 1, _, [] => []
  | f + 1, inc, nid :: rest =>
      let p := (dget outs nid []).foldl relaxOne (inc, rest)
      nid :: kahnRun outs f p.1 p.2

/-- The shared set-up of `_topo` and `topo_sort`: in-degree counters
seeded at 0 for every node, incremented per edge target (`inc.get(t, 0) +
1` also creates counters for targets that are not nodes), and successor
lists per edge source. -/
def topoCore (nodeIds : List String) (edges : List (String × String)) :
    IncMap × OutsMap :=
  let inc0 := nodeIds.foldl (fun d n => dset d n (0 : Int)) []
  let inc := edges.foldl (fun d e => dset d e.2 (dget d e.2 0 + 1)) inc0
  let outs0 := nodeIds.foldl (fun d n => dset d n ([] : List String)) []
  let outs := edges.foldl (fun d e => dset d e.1 (dget d e.1 [] ++ [e.2])) outs0
  (inc, outs)

/-- `_topo(nodes, edges)` from `src/optimizer.py`: the initial queue is
`[nid for nid in inc if inc[nid] == 0]` — the *dict's* keys in insertion
order; on an incomplete sweep the original node order is returned. -/
def opt_topo (nodeIds : List String) (edges : List (String × String)) :
    List String :=
  let (inc, outs) := topoCore nodeIds edges
  let q := (inc.filter (fun p => p.2 = 0)).map Prod.fst
  let out := kahnRun outs (q.length + posCount inc + 1) inc q
  if out.length = nodeIds.length then out else nodeIds

/-- `topo_sort(nodes, edges)` from `src/server.py`: identical except the
initial queue is `[n.id for n in nodes if incoming.get(n.id, 0) == 0]` —
the *node list* (duplicates included) rather than the dict's keys. -/
def topo_sort (nodeIds : List String) (edges : List (String × String)) :
    List String :=
  let (inc, outs) := topoCore nodeIds edges
  let q := nodeIds.filter (fun n => dget inc n 0 = 0)
  let out := kahnRun outs (q.length + posCount inc + 1) inc q
  if out.length ≠ nodeIds.length then nodeIds else out

/-- Backward reachability: `ReachTo edges t x` holds when `t` is
reachable from `x` by following zero or more edges forward (so `x` is an
ancestor of `t`, `t` itself included). -/
inductive ReachTo (edges : List (String × String)) (t : String) :
    String → Prop
  | refl : ReachTo edges t t
  | head {a b : String} : (a, b) ∈ edges → ReachTo edges t b →
      ReachTo edges t a

/-- Nonempty edge-paths (at least one edge) — `ReachPlus edges a a` is a
cycle through `a`. -/
inductive ReachPlus (edges : List (String × String)) : String → String → Prop
  | single {a b : String} : (a, b) ∈ edges → ReachPlus edges a b
  | cons {a b c : String} : (a, b) ∈ edges → ReachPlus edges b c →
      ReachPlus edges a c

/-- Acyclicity as the existence of a rank function every edge strictly
increases. -/
def Acyclic (edges : List (String × String)) : Prop :=
  ∃ rank : String → Nat, ∀ e ∈ edges, rank e.1 < rank e.2

/-- In-degree of `t`: how many edges target it. -/
def indegE (edges : List (String × String)) (t : String) : Nat :=
  (edges.filter (fun e => e.2 = t)).length

/-- How many edges into `t` come from already-processed nodes. -/
def inFrom (edges : List (String × String)) (done : List String)
    (t : String) : Nat :=
  (edges.filter (fun e => e.2 = t ∧ e.1 ∈ done)).length

/-- Multiplicity of the edge `(s, t)` in the edge list. -/
def cntE (edges : List (String × String)) (s t : String) : Nat :=
  (edges.filter (fun e => e.1 = s ∧ e.2 = t)).length

/-- The nodes the relaxation of a successor list appends to the queue:
those whose counter hits exactly zero. -/
def hitList : List String → IncMap → List String
  | [], _ => []
  | t :: ts, inc =>
      let v := dget inc t 0 - 1
      if v = 0 then t :: hitList ts (dset inc t v)
      else hitList ts (dset inc t v)

/-- The invariant `kahnRun`'s loop maintains on a well-formed graph:
`done` are the popped nodes (in pop order), `q` the pending queue,
`inc` the counter dict. -/
structure KahnInv (nodeIds : List String) (edges : List (String × String))
    (done q : List String) (inc : IncMap) : Prop where
  doneNodup : done.Nodup
  qNodup : q.Nodup
  disj : ∀ x ∈ q, x ∉ done
  doneSub : ∀ x ∈ done, x ∈ nodeIds
  qSub : ∀ x ∈ q, x ∈ nodeIds
  incVal : ∀ t, dget inc t 0 =
    (indegE edges t : Int) - (inFrom edges done t : Int)
  doneZero : ∀ t ∈ done, inFrom edges done t = indegE edges t
  qZero : ∀ t ∈ q, inFrom edges done t = indegE edges t
  zeroCov : ∀ t ∈ nodeIds, inFrom edges done t = indegE edges t →
    t ∈ done ∨ t ∈ q
  orderOK : ∀ e ∈ edges, ∀ l₁ l₂, done = l₁ ++ e.2 :: l₂ → e.1 ∈ l₁

/-- What holds of the full pop order once the queue has drained. -/
def KahnEnd (nodeIds : List String) (edges : List (String × String))
    (d : List String) : Prop :=
  d.Nodup ∧ (∀ x ∈ d, x ∈ nodeIds) ∧
  (∀ e ∈ edges, ∀ l₁ l₂, d = l₁ ++ e.2 :: l₂ → e.1 ∈ l₁) ∧
  (∀ t ∈ nodeIds, inFrom edges d t = indegE edges t → t ∈ d)

/-! ## Optimizer graph rewriting (`src/optimizer.py`)

`combine_redundant` mutates a dict `id2` of live nodes and the edge list
in place while reading *stale* parent/child maps computed from the input
edges.  The state below separates the Python object heap (`objs`, whose
payloads survive and remain visible through aliases even after a node is
popped from `id2`) from the live key set (`present`). -/

structure NData where
  ntype : String := ""
  columns : String := ""
  expr : String := ""
deriving DecidableEq, Repr

structure OptState where
  objs : List (String × NData)
  present : List String
  edges : List (String × String)
deriving DecidableEq, Repr

/-- The payload of a node the heap does not know (unreachable on the
source's inputs, where every looked-up id was inserted). -/
def ndNil : NData := {}

/-- `_parents(edges)`: sources per target, in edge order (the second
`setdefault` only seeds empty entries for sources). -/
def parentsMap (edges : List (String × String)) :
    List (String × List String) :=
  edges.foldl (fun d e =>
    let d' := dset d e.2 (dget d e.2 [] ++ [e.1])
    dset d' e.1 (dget d' e.1 [])) []

/-- `_children(edges)`: targets per source, in edge order. -/
def childrenMap (edges : List (String × String)) :
    List (String × List String) :=
  edges.foldl (fun d e =>
    let d' := dset d e.1 (dget d e.1 [] ++ [e.2])
    dset d' e.2 (dget d' e.2 [])) []

/-- `_remove_node(nodes, edges, nid)`: splice the node out **only** when
it has exactly one incoming and exactly one outgoing edge right now; the
surviving edge is `parent → child`.  Otherwise nothing changes. -/
def remove_node (st : OptState) (nid : String) : OptState :=
  let ins := st.edges.filter (fun e => e.2 = nid)
  let outs := st.edges.filter (fun e => e.1 = nid)
  if ins.length = 1 ∧ outs.length = 1 then
    { objs := st.objs,
      present := st.present.filter (· ≠ nid),
      edges := st.edges.filter (fun e => e.1 ≠ nid ∧ e.2 ≠ nid) ++
        [((ins.headD ("", "")).1, (outs.headD ("", "")).2)] }
  else st

/-- `pnode["data"]["columns"] = cols` — a heap write, visible through
every alias of the node. -/
def setColumnsOf (st : OptState) (nid : String) (cols : String) : OptState :=
  let nd := dget st.objs nid ndNil
  { st with objs := dset st.objs nid { nd with columns := cols } }

/-- `pnode["data"]["expr"] = expr` — a heap write. -/
def setExprOf (st : OptState) (nid : String) (expr : String) : OptState :=
  let nd := dget st.objs nid ndNil
  { st with objs := dset st.objs nid { nd with expr := expr } }

/-- Rule 3 of the fusion sweep (identity-select elimination), reached
only on the source's fall-through paths: a select whose (stripped,
`or "*"`-defaulted) column text is `""` or `"*"`, with exactly one stale
parent and one stale child, is spliced out. -/
def selectCleanup (parents children : List (String × List String))
    (st : OptState) (nid : String) : OptState :=
  let cols := pyStrip (pyOr (dget st.objs nid ndNil).columns "*")
  if (cols = "" ∨ cols = "*") ∧ (dget parents nid []).length = 1 ∧
      (dget children nid []).length = 1 then
    remove_node st nid
  else st

/-- One iteration of `combine_redundant`'s `for nid in order:` body.
The source's failed parent-type checks are `continue` statements, which
skip rule 3 as well; `t` is read once at the top.  Rules 1 and 2 write
the merged payload onto the parent *before* `_remove_node` tests its
splice precondition. -/
def fuseStep (parents children : List (String × List String))
    (st : OptState) (nid : String) : OptState :=
  if nid ∈ st.present then
    let t := (dget st.objs nid ndNil).ntype
    if t = "transform.select" ∧ (dget parents nid []).length = 1 then
      let pin := (dget parents nid []).headD ""
      if pin ∈ st.present ∧
          (dget st.objs pin ndNil).ntype = "transform.select" then
        let cols1 := pyStrip (pyOr (dget st.objs pin ndNil).columns "*")
        let cols2 := pyStrip (pyOr (dget st.objs nid ndNil).columns "*")
        let st1 :=
          if cols1 = "*" ∧ cols2 ≠ "*" then remove_node st pin
          else if cols1 ≠ "*" ∧ cols2 = "*" then remove_node st nid
          else if cols1 ≠ "*" ∧ cols2 ≠ "*" then
            let set1 := splitCommaClean cols1
            let set2 := splitCommaClean cols2
            let composed := set1.filter (fun c => c ∈ set2)
            remove_node (setColumnsOf st pin
              (if composed ≠ [] then String.intercalate "," composed
               else "*")) nid
          else st
        selectCleanup parents children st1 nid
      else st
    else if t = "transform.filter" ∧ (dget parents nid []).length = 1 then
      let pin := (dget parents nid []).headD ""
      if pin ∈ st.present ∧
          (dget st.objs pin ndNil).ntype = "transform.filter" then
        let e1 := pyStrip (pyOr (dget st.objs pin ndNil).expr "")
        let e2 := pyStrip (pyOr (dget st.objs nid ndNil).expr "")
        let expr := if e1 = "" then e2 else if e2 = "" then e1
          else "(" ++ e1 ++ ") AND (" ++ e2 ++ ")"
        remove_node (setExprOf st pin expr) nid
      else st
    else if t = "transform.select" then
      selectCleanup parents children st nid
    else st
  else st

/-- `combine_redundant(nodes, edges)`: sweep the (stale) topological
order once, then emit the surviving nodes in that order and the edges
deduplicated by `(source, target)` with both endpoints alive. -/
def combine_redundant (nodes : List (String × NData))
    (edges : List (String × String)) :
    List (String × NData) × List (String × String) :=
  let objs := nodes.foldl (fun d n => dset d n.1 n.2) []
  let order := opt_topo (nodes.map Prod.fst) edges
  let parents := parentsMap edges
  let children := childrenMap edges
  let st := order.foldl (fuseStep parents children)
    ⟨objs, dkeys objs, edges⟩
  let nodesOut := order.filterMap (fun i =>
    if i ∈ st.present then some (i, dget st.objs i ndNil) else none)
  let edgesOut := (st.edges.foldl
    (fun (acc : List (String × String) × List (String × String)) e =>
      if e ∉ acc.2 ∧ e.1 ∈ st.present ∧ e.2 ∈ st.present then
        (acc.1 ++ [e], acc.2 ++ [e])
      else acc) ([], [])).1
  (nodesOut, edgesOut)

/-! ## Dead-node pruning (`prune_dead`, `src/optimizer.py` lines 49–66),
backward DFS from the target over predecessor lists -/

/-- Predecessor map: `preds.setdefault(e.target, []).append(e.source)`. -/
def predsMap (edges : List (String × String)) :
    List (String × List String) :=
  edges.foldl (fun d e => dset d e.2 (dget d e.2 [] ++ [e.1])) []

/-- The `while stack:` visit loop.  Python pops from the list's end and
appends predecessors in order, so the stack is modelled with its top at
the head and predecessors pushed left-to-right.  Fuel as in `kahnRun`:
each iteration strictly decreases a measure, and the call site passes
more than the initial measure. -/
def dfsRun (preds : List (String × List String)) :
    Nat → List String → List String → List String
  | 0, keep, _ => keep
  | _ + 1, keep, [] => keep
  | f + 1, keep, cur :: stack =>
      if cur ∈ keep then dfsRun preds f keep stack
      else dfsRun preds f (cur :: keep)
        ((dget preds cur []).foldl (fun s p => p :: s) stack)

/-- The fuel `prune_dead` hands `dfsRun`: strictly above the initial
measure `stack.length + (edges.length + 2) * |universe \ keep|`. -/
def dfsFuel (edges : List (String × String)) : Nat :=
  1 + (edges.length + 2) * (1 + edges.length) + 1

/-- Everything the DFS can ever push: the target and the edge sources. -/
def dfsUniverse (edges : List (String × String)) (t : String) :
    List String := t :: edges.map Prod.fst

/-- How many universe entries are still unvisited. -/
def notKeepCount (edges : List (String × String)) (t : String)
    (keep : List String) : Nat :=
  ((dfsUniverse edges t).filter (fun u => u ∉ keep)).length

/-- The DFS loop measure: each iteration strictly decreases it. -/
def dfsMeasure (edges : List (String × String)) (t : String)
    (keep stack : List String) : Nat :=
  stack.length + (edges.length + 2) * notKeepCount edges t keep

/-- `prune_dead(nodes, edges, target_id)`: identity when the target is
absent (or empty — Python's falsiness test); otherwise keep exactly the
nodes the DFS visits and the edges with both endpoints kept. -/
def prune_dead (nodes : List (String × NData))
    (edges : List (String × String)) (target : Option String) :
    List (String × NData) × List (String × String) :=
  match target with
  | none => (nodes, edges)
  | some t =>
      if t = "" then (nodes, edges)
      else
        let keep := dfsRun (predsMap edges) (dfsFuel edges) [] [t]
        (nodes.filter (fun n => n.1 ∈ keep),
         edges.filter (fun e => e.1 ∈ keep ∧ e.2 ∈ keep))

/-! ## Ground-truth interpreter (`exec_workflow_pandas`, `src/server.py`
lines 665–853)

Tables are lists of rows over named columns; a cell is `Option String`
with `none` the null/missing marker.  The pandas and file-system calls a
node body makes are oracles returning `Option` (`none` = the call
raises); everything around them — argument preparation, the `try`
structure, the error-map updates — is embedded directly. -/

abbrev Val := Option String

structure Table where
  cols : List String
  rows : List (List Val)
deriving DecidableEq, Repr

def emptyTable : Table := ⟨[], []⟩

/-- `df[c] = vals`: pandas keeps an existing column's position and
appends a new column at the end. -/
def setCol (t : Table) (c : String) (vals : List Val) : Table :=
  if c ∈ t.cols then
    ⟨t.cols, t.rows.mapIdx (fun i row =>
      row.set (t.cols.indexOf c) (vals.getD i none))⟩
  else
    ⟨t.cols ++ [c], t.rows.mapIdx (fun i row => row ++ [vals.getD i none])⟩

/-- The values of column `c`, read off row by row (at `c`'s first
position in the header). -/
def colVals (t : Table) (c : String) : List Val :=
  t.rows.map (fun row => row.getD (t.cols.indexOf c) none)

/-- `df[cols]`: projection onto the listed columns in listed order;
`none` (a `KeyError`) when a column is missing. -/
def tableSelect (t : Table) (cs : List String) : Option Table :=
  if cs.all (fun c => c ∈ t.cols) then
    some ⟨cs, t.rows.map (fun row =>
      cs.map (fun c => row.getD (t.cols.indexOf c) none))⟩
  else none

/-- The library calls the interpreter makes, as oracles: `none` models
the call raising.  `sampleN` is pandas `DataFrame.sample(n=k)`; the
well-behavedness the theorems assume of it (exactly `k` rows when
`k ≤ len`, raise otherwise) is stated as an explicit hypothesis, and
`takeSample` below realises it. -/
structure Oracles where
  readCsvText : String → Option Table
  readCsvPath : String → Option Table
  pathExists : String → Bool
  runQuery : Table → String → Option Table
  evalExpr : Table → String → Option (List Val)
  applySchema : Table → List (String × String) → Option Table
  summarizeT : Table → List String → List (String × String × String) →
    Option Table
  sortT : Table → List String → List Bool → Option Table
  sampleFracT : Table → Option Table
  sampleN : Table → Nat → Option Table
  mergeT : Table → Table → String → List String → List String →
    Option Table
  writeCsv : String → Table → Bool

/-- A deterministic sampler satisfying the pandas `sample(n=k)` contract:
the first `k` rows when `k ≤ len`, `none` otherwise. -/
def takeSample (t : Table) (k : Nat) : Option Table :=
  if k ≤ t.rows.length then some ⟨t.cols, t.rows.take k⟩ else none

/-- A workflow node (`Node`/`NodeData` of `src/server.py`); `""`/`0`
play Python `None` for the optional payload fields, matching the
source's `or`-defaulting of falsy values. -/
structure WNode where
  id : String
  label : Option String := none
  ntype : String
  path : String := ""
  fileText : String := ""
  columns : String := ""
  schema : List (String × String) := []
  expr : String := ""
  groupBy : String := ""
  measures : List (String × String × String) := []
  newCol : String := ""
  sortSpec : String := ""
  mode : String := ""
  nField : Nat := 0
  how : String := ""
  left_on : String := ""
  right_on : String := ""
deriving DecidableEq, Repr

def wNil : WNode := { id := "", ntype := "" }

/-- `p.split()[0]` — the first whitespace-delimited token. -/
def pyFirstWord (s : String) : String :=
  String.mk ((s.toList.dropWhile Char.isWhitespace).takeWhile
    (fun c => !c.isWhitespace))

/-- `ps[0]` with Python's `IndexError` when a parent is missing. -/
def headT (ps : List Table) : Except String Table :=
  match ps with
  | [] => .error "IndexError: list index out of range"
  | p :: _ => .ok p

/-- The body of one node's evaluation: the `try:` block of the
interpreter loop, excluding the outer handler.  `.error msg` models an
exception reaching the outer `except`; `.ok (df, some msg)` models the
two *inner* handlers (filter, formula) that record an error themselves
and still produce a table. -/
def nodeBody (orc : Oracles) (ps : List Table) (n : WNode) :
    Except String (Table × Option String) :=
  if n.ntype = "source.csv" then
    if pyStrip n.fileText ≠ "" then
      match orc.readCsvText n.fileText with
      | some df => .ok (df, none)
      | none => .error "ParserError: could not parse uploaded CSV text"
    else if pyStrip n.path ≠ "" && orc.pathExists (pyStrip n.path) then
      match orc.readCsvPath (pyStrip n.path) with
      | some df => .ok (df, none)
      | none => .error "ParserError: could not parse CSV file"
    else
      .error "FileNotFoundError: CSV Source has no uploaded data or readable path."
  else if n.ntype = "transform.select" then do
    let ps0 ← headT ps
    let colsStr := pyStrip (pyOr n.columns "*")
    let base ←
      if colsStr = "" ∨ colsStr = "*" then pure ps0
      else
        match tableSelect ps0 (splitCommaClean colsStr) with
        | some df => pure df
        | none => .error "KeyError: column not found"
    if n.schema = [] then .ok (base, none)
    else
      match orc.applySchema base n.schema with
      | some df => .ok (df, none)
      | none => .error "TypeError: schema coercion failed"
  else if n.ntype = "transform.filter" then do
    let ps0 ← headT ps
    let expr := pyOr n.expr "True"
    match orc.runQuery ps0 expr with
    | some df => .ok (df, none)
    | none => .ok (ps0, some
        ("Filter expression failed; returned input unchanged. expr=" ++ expr))
  else if n.ntype = "transform.summarize" then do
    let ps0 ← headT ps
    match orc.summarizeT ps0 (splitCommaClean n.groupBy) n.measures with
    | some df => .ok (df, none)
    | none => .error "KeyError: aggregation failed"
  else if n.ntype = "transform.formula" then do
    let ps0 ← headT ps
    let newCol := pyOr n.newCol "new_column"
    let expr := pyOr n.expr "0"
    match orc.evalExpr ps0 expr with
    | some vals => .ok (setCol ps0 newCol vals, none)
    | none => .ok (setCol ps0 newCol (List.replicate ps0.rows.length none),
        some ("Formula evaluation failed; filled " ++ newCol ++
          " with nulls. expr=" ++ expr))
  else if n.ntype = "transform.sort" then do
    let ps0 ← headT ps
    let spec := pyStrip n.sortSpec
    if spec = "" then .ok (ps0, none)
    else
      let pieces := splitCommaClean spec
      match orc.sortT ps0 (pieces.map pyFirstWord)
          (pieces.map (fun p => !(pyLower p).endsWith "desc")) with
      | some df => .ok (df, none)
      | none => .error "KeyError: sort column missing"
  else if n.ntype = "transform.sample" then do
    let ps0 ← headT ps
    if pyOr n.mode "rows" = "fraction" then
      match orc.sampleFracT ps0 with
      | some df => .ok (df, none)
      | none => .error "ValueError: sample fraction failed"
    else
      match orc.sampleN ps0 (min (pyOrNat n.nField 100) ps0.rows.length) with
      | some df => .ok (df, none)
      | none => .error "ValueError: sample failed"
  else if n.ntype = "transform.join" then
    match ps with
    | p0 :: p1 :: _ =>
        match orc.mergeT p0 p1 (pyOr n.how "inner")
            (splitCommaClean (pyOr n.left_on "id"))
            (splitCommaClean (pyOr n.right_on "id")) with
        | some df => .ok (df, none)
        | none => .error "MergeError: join failed"
    | _ => .error "IndexError: list index out of range"
  else if n.ntype = "sink.csv" then do
    let ps0 ← headT ps
    if orc.writeCsv (pyOr n.path "out.csv") ps0 then .ok (ps0, none)
    else .error "OSError: could not write CSV"
  else
    .ok (ps.headD emptyTable, none)

structure ExecState where
  frames : List (String × Table)
  errors : List (String × String)
deriving DecidableEq, Repr

/-- One iteration of the interpreter's node loop: gather the parents'
frames (`frames.get(p, pd.DataFrame())`), run the body, and on an
exception record `node_errors[nid]` and substitute an **empty table**;
the inner handlers' tables and messages pass through. -/
def stepNode (orc : Oracles) (parents : List (String × List String))
    (st : ExecState) (n : WNode) : ExecState :=
  match nodeBody orc
    ((dget parents n.id []).map (fun p => dget st.frames p emptyTable)) n with
  | .ok (df, none) => { st with frames := dset st.frames n.id df }
  | .ok (df, some m) => ⟨dset st.frames n.id df, dset st.errors n.id m⟩
  | .error m => ⟨dset st.frames n.id emptyTable, dset st.errors n.id m⟩

/-- The full `for nid in order:` loop. -/
def execLoop (orc : Oracles) (parents : List (String × List String))
    (st : ExecState) (ns : List WNode) : ExecState :=
  ns.foldl (stepNode orc parents) st

/-- `subgraph_up_to(nodes, edges, target_id)` from `src/server.py`: the
same backward DFS as `prune_dead` (`stack.extend` equals the append
loop), with the predecessor dict seeded for every node. -/
def subgraph_up_to (nodes : List WNode) (edges : List (String × String))
    (target : Option String) : List WNode × List (String × String) :=
  match target with
  | none => (nodes, edges)
  | some t =>
      if t = "" then (nodes, edges)
      else
        let preds0 := nodes.foldl
          (fun d n => dset d n.id ([] : List String)) []
        let preds := edges.foldl
          (fun d e => dset d e.2 (dget d e.2 [] ++ [e.1])) preds0
        let keep := dfsRun preds (dfsFuel edges) [] [t]
        (nodes.filter (fun n => n.id ∈ keep),
         edges.filter (fun e => e.1 ∈ keep ∧ e.2 ∈ keep))

/-- `exec_workflow_pandas(nodes, edges, preview_id)`: restrict to the
preview subgraph, order it, run every node, return the last node's
frame and the error map.  (On a well-formed graph the order's ids are
node ids; the `dget … wNil` default models Python's always-successful
`id2[nid]` there.) -/
def exec_workflow_pandas (orc : Oracles) (nodes : List WNode)
    (edges : List (String × String)) (previewId : Option String) :
    Table × List (String × String) :=
  let (n2, e2) := subgraph_up_to nodes edges previewId
  let order := topo_sort (n2.map (·.id)) e2
  let id2 := n2.foldl (fun d n => dset d n.id n) []
  let parents0 := n2.foldl (fun d n => dset d n.id ([] : List String)) []
  let parents := e2.foldl
    (fun d e => dset d e.2 (dget d e.2 [] ++ [e.1])) parents0
  let st := execLoop orc parents ⟨[], []⟩
    (order.map (fun nid => dget id2 nid wNil))
  (match order.getLast? with
   | some lastId => dget st.frames lastId emptyTable
   | none => emptyTable,
   st.errors)

/-! # Lemmas and theorems -/

/-! ## Dictionary lemmas -/

theorem dget_dset_self {β : Type} (d : List (String × β)) (k : String)
    (v dflt : β) : dget (dset d k v) k dflt = v := by
  induction d with
  | nil => simp [dset, dget]
  | cons p rest ih =>
      obtain ⟨k', v'⟩ := p
      by_cases h : k' = k <;> simp [dset, dget, h, ih]

theorem dget_dset_ne {β : Type} (d : List (String × β)) (k k2 : String)
    (v dflt : β) (h : k2 ≠ k) :
    dget (dset d k v) k2 dflt = dget d k2 dflt := by
  induction d with
  | nil =>
      simp only [dset, dget]
      rw [if_neg (fun hh : k = k2 => h hh.symm)]
  | cons p rest ih =>
      obtain ⟨k', v'⟩ := p
      simp only [dset]
      by_cases hk : k' = k
      · subst hk
        simp only [if_pos rfl, dget]
        rw [if_neg (fun hh : k' = k2 => h hh.symm),
          if_neg (fun hh : k' = k2 => h hh.symm)]
      · simp only [if_neg hk, dget]
        by_cases hk2 : k' = k2
        · simp [hk2]
        · simp [hk2, ih]

theorem dget_dset (d : List (String × Int)) (k k2 : String) (v : Int) :
    dget (dset d k v) k2 0 = if k2 = k then v else dget d k2 0 := by
  by_cases h : k2 = k
  · subst h; simp [dget_dset_self]
  · simp [h, dget_dset_ne _ _ _ _ _ h]

/-! ## C2 — signature comparison -/

/-- C2: `compare_signatures` returns `matches = true` iff column
names-and-order, row counts and sample hashes are all equal — the dtype
lists are not consulted — and the reason it reports is the first failing
dimension in the order columns, rows, sample hash.  The last conjunct
exhibits two signatures that differ only in dtypes and still match. -/
theorem compare_signatures_match_iff (a b : Signature) :
    ((compare_signatures a b).1 = true ↔
      (a.columns = b.columns ∧ a.rows = b.rows ∧
        a.sample_md5 = b.sample_md5)) ∧
    (compare_signatures a b).2 = claimFirstFailReason a b ∧
    (compare_signatures ⟨["x"], ["int64"], 3, "h"⟩
      ⟨["x"], ["string"], 3, "h"⟩).1 = true := by
  refine ⟨?_, ?_, by decide⟩
  · unfold compare_signatures
    split_ifs <;> simp_all
  · unfold compare_signatures claimFirstFailReason
    split_ifs <;> rfl

/-! ## C8 — identifier assignment -/

theorem assignNames_foldl_go (labels : List (Option String))
    (out : List String) (counts : List (String × Nat)) :
    (labels.foldl
      (fun (acc : List String × List (String × Nat)) lb =>
        let r := friendly_name lb acc.2
        (acc.1 ++ [r.1], r.2)) (out, counts)).1 =
    out ++ assignGo counts labels := by
  induction labels generalizing out counts with
  | nil => simp [assignGo]
  | cons lb rest ih => simp [assignGo, ih]

theorem assignGo_length (counts : List (String × Nat))
    (labels : List (Option String)) :
    (assignGo counts labels).length = labels.length := by
  induction labels generalizing counts with
  | nil => rfl
  | cons lb rest ih => simp [assignGo, ih]

theorem assignGo_getD (labels : List (Option String))
    (prior : List (Option String)) (counts : List (String × Nat))
    (hc : ∀ b, dget counts b 0 =
      (prior.filter (fun l => friendlyBase l = b)).length) :
    ∀ i, i < labels.length →
      (assignGo counts labels).getD i "" =
        (if (prior.filter (fun l =>
              friendlyBase l = friendlyBase (labels.getD i none))).length +
            ((labels.take (i + 1)).filter (fun l =>
              friendlyBase l = friendlyBase (labels.getD i none))).length = 1
         then friendlyBase (labels.getD i none)
         else friendlyBase (labels.getD i none) ++ "_" ++ toString
           ((prior.filter (fun l =>
              friendlyBase l = friendlyBase (labels.getD i none))).length +
            ((labels.take (i + 1)).filter (fun l =>
              friendlyBase l = friendlyBase (labels.getD i none))).length)) := by
  induction labels generalizing prior counts with
  | nil => intro i hi; simp at hi
  | cons lb rest ih =>
      intro i hi
      match i with
      | 0 =>
          simp only [assignGo, friendly_name, List.getD_cons_zero,
            List.getD_cons_zero, List.take_succ_cons, List.take_zero,
            List.filter_cons]
          rw [hc (friendlyBase lb)]
          simp
      | i + 1 =>
          have hrec := ih (prior ++ [lb])
            (dset counts (friendlyBase lb)
              (dget counts (friendlyBase lb) 0 + 1))
            (by
              intro b
              by_cases hbb : b = friendlyBase lb
              · subst hbb
                rw [dget_dset_self, hc]
                simp
              · rw [dget_dset_ne _ _ _ _ _ hbb, hc]
                have : friendlyBase lb ≠ b := fun hh => hbb hh.symm
                simp [List.filter_append, this])
            i (by simpa using hi)
          simp only [assignGo, friendly_name]
          simp only [List.getD_cons_succ]
          rw [hrec]
          have hsplit : ∀ (p : Option String → Bool)
              (x : Option String) (l : List (Option String)),
              (List.filter p (x :: l)).length =
                (List.filter p [x]).length + (List.filter p l).length := by
            intro p x l
            rw [show x :: l = [x] ++ l from rfl, List.filter_append,
              List.length_append]
          simp only [List.getD_cons_succ, List.take_succ_cons,
            List.filter_append, List.length_append]
          rw [hsplit _ lb (List.take (i + 1) rest), Nat.add_assoc]

/-- C8 (amended): identifier assignment lowercases the label, replaces
every non-alphanumeric **character** with an underscore, strips the
underscores at both ends, defaults to `"node"` when empty, and
deduplicates in first-seen order: position `i`'s identifier is its base
when this is the base's first occurrence, and `base_k` when it is the
`k`-th (counted over positions `0..i`).  In particular two labels
`"Filter"`, `"Filter"` give `"filter"`, `"filter_2"`. -/
theorem assign_names_dedup (labels : List (Option String)) :
    (assignNames labels).length = labels.length ∧
    (∀ i, i < labels.length →
      (assignNames labels).getD i "" = specNameAt labels i) ∧
    assignNames [some "Filter", some "Filter"] = ["filter", "filter_2"] := by
  refine ⟨?_, ?_, by decide⟩
  · unfold assignNames
    rw [assignNames_foldl_go]
    simp [assignGo_length]
  · intro i hi
    unfold assignNames specNameAt
    rw [assignNames_foldl_go]
    simp only [List.nil_append]
    rw [assignGo_getD labels [] [] (fun b => rfl) i hi]
    simp

/-- C8 counterexample: the claim says a non-alphanumeric *run* becomes a
single underscore; the code replaces each character, so label `"a--b"`
yields `"a__b"`, not the claimed `"a_b"`. -/
theorem underscore_run_cex :
    friendlyBase (some "a--b") = "a__b" ∧
    specCollapseBase (some "a--b") = "a_b" ∧
    friendlyBase (some "a--b") ≠ specCollapseBase (some "a--b") := by
  decide

/-! ## C6 — join-key wrapping -/

theorem rangeMap_wrap (lk rk : List String) (h : rk ≠ []) :
    (List.range lk.length).map (fun i =>
      (lk.getD i "", rk.getD (if i < rk.length then i else 0) "")) =
    specWrapPairs lk rk := by
  unfold specWrapPairs
  apply List.ext_getElem
  · simp only [List.length_map, List.length_range, List.length_zip,
      List.length_append, List.length_replicate]
    omega
  · intro i h1 h2
    simp only [List.length_map, List.length_range] at h1
    simp only [List.getElem_map, List.getElem_range, List.getElem_zip]
    refine Prod.ext ?_ ?_
    · simp [List.getD, List.getElem?_eq_getElem h1]
    · by_cases hir : i < rk.length
      · simp [List.getD, hir, List.getElem?_eq_getElem hir,
          List.getElem_append_left hir]
      · have hlen : rk.length ≤ i := Nat.le_of_not_lt hir
        have h0 : 0 < rk.length := List.length_pos.mpr h
        simp only [hir, if_false, List.getD,
          List.getElem?_eq_getElem h0, Option.getD_some]
        rw [List.getElem_append_right hlen]
        simp only [List.getElem_replicate]
        cases rk with
        | nil => exact absurd rfl h
        | cons a t => simp [List.headD]

/-- C6 (amended): the SQL and Spark join lowerings bind one pairwise key
equality per left key, with indices beyond a (nonempty) shorter
right-key list wrapping to the right list's first element, exactly as
zipping the left list against the right list padded with its head.  (The
Python lowering does not: it forwards both key lists to `merge`
unchanged — see the counterexample.) -/
theorem join_key_wrap_sql_spark (left right pl pr : String) :
    (sqlJoinKeys right ≠ [] →
      sqlOnExpr left right = String.intercalate " AND "
        ((specWrapPairs (sqlJoinKeys left) (sqlJoinKeys right)).map
          (fun p => p.1 ++ " = " ++ p.2))) ∧
    (splitCommaClean (pyOr right "id") ≠ [] →
      sparkJoinCond pl pr left right = String.intercalate " & "
        ((specWrapPairs (splitCommaClean (pyOr left "id"))
          (splitCommaClean (pyOr right "id"))).map
          (fun p => pl ++ "." ++ p.1 ++ " == " ++ pr ++ "." ++ p.2))) := by
  constructor
  · intro h
    unfold sqlOnExpr
    rw [← rangeMap_wrap (sqlJoinKeys left) (sqlJoinKeys right) h,
      List.map_map]
    rfl
  · intro h
    unfold sparkJoinCond
    rw [← rangeMap_wrap (splitCommaClean (pyOr left "id"))
      (splitCommaClean (pyOr right "id")) h, List.map_map]
    rfl

/-- C6 counterexample: for `leftKeys = "a,b"`, `rightKeys = "x"` the
Python lowering forwards the unequal-length lists to `merge`, whose key
binding fails (`none`) instead of producing the wrapped pairs
`[(a,x), (b,x)]` the claim asserts for every backend. -/
theorem python_join_no_wrap_cex :
    genPythonMergeKeys "a,b" "x" = (["a", "b"], ["x"]) ∧
    pandasMergeKeyPairs ["a", "b"] ["x"] = none ∧
    specWrapPairs ["a", "b"] ["x"] = [("a", "x"), ("b", "x")] := by
  decide

/-! ## C7 — sample `mode=rows` row counts -/

/-- C7 (amended): with `N = int(n or 100)` the interpreter
(`sample(n=min(N, len))`, shown both on the row-count model and on the
interpreter's node body under the pandas sampler contract), the SQL
lowering (`USING SAMPLE N ROWS`) and the Spark lowering
(`limit(min(N, count))`) all yield exactly `min(N, r)` rows on an
`r`-row input; the Python lowering emits `sample(n=N)` unclamped and
yields `min(N, r)` rows only when `N ≤ r` (it raises otherwise — see
the counterexample). -/
theorem sample_rows_min_semantics (nv r : Nat) (orc : Oracles)
    (n : WNode) (ps0 : Table) (tl : List Table) :
    interpSampleRowCount nv r = some (min (pyOrNat nv 100) r) ∧
    duckdbSampleRowCount nv r = min (pyOrNat nv 100) r ∧
    sparkLoweredSampleRowCount nv r = min (pyOrNat nv 100) r ∧
    (pyOrNat nv 100 ≤ r →
      pythonLoweredSampleRowCount nv r = some (min (pyOrNat nv 100) r)) ∧
    (n.ntype = "transform.sample" → n.mode = "rows" →
      orc.sampleN = takeSample →
      ∃ df, nodeBody orc (ps0 :: tl) n = .ok (df, none) ∧
        df.rows.length = min (pyOrNat n.nField 100) ps0.rows.length) := by
  refine ⟨?_, ?_, ?_, ?_, ?_⟩
  · simp [interpSampleRowCount, pandasSampleRowCount, Nat.min_le_right]
  · rfl
  · simp [sparkLoweredSampleRowCount, sparkLimitRowCount, Nat.min_assoc]
  · intro h
    simp [pythonLoweredSampleRowCount, pandasSampleRowCount, h,
      Nat.min_eq_left h]
  · intro h1 h2 h3
    refine ⟨⟨ps0.cols, ps0.rows.take
      (min (pyOrNat n.nField 100) ps0.rows.length)⟩, ?_, ?_⟩
    · simp only [nodeBody, h1, h2, h3, headT, pyOr, takeSample,
        Except.bind, Nat.min_le_right, String.reduceEq, reduceIte,
        Nat.min_le_right, min_le_iff, le_refl, or_true, if_true]
      rfl
    · simp [Nat.min_le_right]

/-- C7 counterexample: a rows-mode sample with `n = 5` on a 3-row input:
the claim demands `min(5,3) = 3` rows from every backend, but the
Python-lowered `sample(n=5)` raises (`none`) while the interpreter, SQL
and Spark lowerings do yield 3. -/
theorem python_sample_overflow_cex :
    pythonLoweredSampleRowCount 5 3 = none ∧
    interpSampleRowCount 5 3 = some 3 ∧
    sparkLoweredSampleRowCount 5 3 = 3 ∧
    duckdbSampleRowCount 5 3 = 3 := by
  decide

/-! ## C4 — splice contract and payload-before-splice -/

/-- C4: (i) `_remove_node` removes a node exactly when it has one
incoming and one outgoing edge at that moment, the surviving edge being
`parent → child`, and is otherwise the identity; (ii) fusion rule 2
(filter–filter) and (iii) fusion rule 1's both-explicit branch
(select–select) write the merged payload onto the surviving parent
*before* that precondition is tested, so on a fused node with two or
more children the splice silently does not happen: the node stays in the
graph, the edges are untouched, and the parent's payload is already
overwritten. -/
theorem splice_contract_and_payload_first (st : OptState)
    (nid pin src dst : String)
    (parents children : List (String × List String)) :
    ((st.edges.filter (fun e => e.2 = nid) = [(src, nid)] →
      st.edges.filter (fun e => e.1 = nid) = [(nid, dst)] →
      remove_node st nid =
        ⟨st.objs, st.present.filter (· ≠ nid),
         st.edges.filter (fun e => e.1 ≠ nid ∧ e.2 ≠ nid) ++
           [(src, dst)]⟩)) ∧
    (¬((st.edges.filter (fun e => e.2 = nid)).length = 1 ∧
        (st.edges.filter (fun e => e.1 = nid)).length = 1) →
      remove_node st nid = st) ∧
    (nid ∈ st.present →
      (dget st.objs nid ndNil).ntype = "transform.filter" →
      dget parents nid [] = [pin] →
      pin ∈ st.present →
      (dget st.objs pin ndNil).ntype = "transform.filter" →
      2 ≤ (st.edges.filter (fun e => e.1 = nid)).length →
      fuseStep parents children st nid =
        setExprOf st pin
          (let e1 := pyStrip (pyOr (dget st.objs pin ndNil).expr "")
           let e2 := pyStrip (pyOr (dget st.objs nid ndNil).expr "")
           if e1 = "" then e2 else if e2 = "" then e1
           else "(" ++ e1 ++ ") AND (" ++ e2 ++ ")") ∧
      nid ∈ (fuseStep parents children st nid).present ∧
      (fuseStep parents children st nid).edges = st.edges) ∧
    (nid ∈ st.present →
      (dget st.objs nid ndNil).ntype = "transform.select" →
      dget parents nid [] = [pin] →
      pin ∈ st.present →
      (dget st.objs pin ndNil).ntype = "transform.select" →
      pin ≠ nid →
      pyStrip (pyOr (dget st.objs pin ndNil).columns "*") ≠ "*" →
      pyStrip (pyOr (dget st.objs nid ndNil).columns "*") ≠ "*" →
      pyStrip (pyOr (dget st.objs nid ndNil).columns "*") ≠ "" →
      2 ≤ (st.edges.filter (fun e => e.1 = nid)).length →
      fuseStep parents children st nid =
        setColumnsOf st pin
          (let set1 := splitCommaClean
            (pyStrip (pyOr (dget st.objs pin ndNil).columns "*"))
           let set2 := splitCommaClean
            (pyStrip (pyOr (dget st.objs nid ndNil).columns "*"))
           let composed := set1.filter (fun c => c ∈ set2)
           if composed ≠ [] then String.intercalate "," composed
           else "*") ∧
      nid ∈ (fuseStep parents children st nid).present ∧
      (fuseStep parents children st nid).edges = st.edges) := by
  have hOutsBig : ∀ (st' : OptState),
      st'.edges = st.edges →
      2 ≤ (st.edges.filter (fun e => e.1 = nid)).length →
      remove_node st' nid = st' := by
    intro st' hE h2
    unfold remove_node
    rw [hE]
    rw [if_neg]
    rintro ⟨-, hlen1⟩
    omega
  refine ⟨?_, ?_, ?_, ?_⟩
  · intro hins houts
    unfold remove_node
    rw [hins, houts]
    simp
  · intro hcond
    unfold remove_node
    rw [if_neg hcond]
  · intro hpres htype hpar hpinpres hptype houtdeg
    have hnotsel : ¬((dget st.objs nid ndNil).ntype = "transform.select" ∧
        (dget parents nid []).length = 1) := by
      rw [htype]; rintro ⟨hh, -⟩; exact absurd hh (by decide)
    have hstep : fuseStep parents children st nid =
        remove_node (setExprOf st pin
          (let e1 := pyStrip (pyOr (dget st.objs pin ndNil).expr "")
           let e2 := pyStrip (pyOr (dget st.objs nid ndNil).expr "")
           if e1 = "" then e2 else if e2 = "" then e1
           else "(" ++ e1 ++ ") AND (" ++ e2 ++ ")")) nid := by
      unfold fuseStep
      rw [if_pos hpres, if_neg hnotsel, if_pos ⟨htype, by rw [hpar]; rfl⟩,
        hpar]
      simp only [List.headD_cons]
      rw [if_pos ⟨hpinpres, hptype⟩]
    rw [hstep]
    rw [hOutsBig (setExprOf st pin
      (let e1 := pyStrip (pyOr (dget st.objs pin ndNil).expr "")
       let e2 := pyStrip (pyOr (dget st.objs nid ndNil).expr "")
       if e1 = "" then e2 else if e2 = "" then e1
       else "(" ++ e1 ++ ") AND (" ++ e2 ++ ")")) rfl houtdeg]
    exact ⟨rfl, hpres, rfl⟩
  · intro hpres htype hpar hpinpres hptype hne hc1 hc2 hc2e houtdeg
    have hsel : (dget st.objs nid ndNil).ntype = "transform.select" ∧
        (dget parents nid []).length = 1 := ⟨htype, by rw [hpar]; rfl⟩
    have hstep : fuseStep parents children st nid =
        selectCleanup parents children
          (remove_node (setColumnsOf st pin
            (let set1 := splitCommaClean
              (pyStrip (pyOr (dget st.objs pin ndNil).columns "*"))
             let set2 := splitCommaClean
              (pyStrip (pyOr (dget st.objs nid ndNil).columns "*"))
             let composed := set1.filter (fun c => c ∈ set2)
             if composed ≠ [] then String.intercalate "," composed
             else "*")) nid) nid := by
      unfold fuseStep
      rw [if_pos hpres, if_pos hsel, hpar]
      simp only [List.headD_cons]
      rw [if_pos ⟨hpinpres, hptype⟩]
      rw [if_neg (by rintro ⟨hh, -⟩; exact hc1 hh)]
      rw [if_neg (by rintro ⟨-, hh⟩; exact hc2 hh)]
      rw [if_pos ⟨hc1, hc2⟩]
    rw [hstep]
    rw [hOutsBig (setColumnsOf st pin
      (let set1 := splitCommaClean
        (pyStrip (pyOr (dget st.objs pin ndNil).columns "*"))
       let set2 := splitCommaClean
        (pyStrip (pyOr (dget st.objs nid ndNil).columns "*"))
       let composed := set1.filter (fun c => c ∈ set2)
       if composed ≠ [] then String.intercalate "," composed
       else "*")) rfl houtdeg]
    have hobjs : (dget (setColumnsOf st pin
        (let set1 := splitCommaClean
          (pyStrip (pyOr (dget st.objs pin ndNil).columns "*"))
         let set2 := splitCommaClean
          (pyStrip (pyOr (dget st.objs nid ndNil).columns "*"))
         let composed := set1.filter (fun c => c ∈ set2)
         if composed ≠ [] then String.intercalate "," composed
         else "*")).objs nid ndNil) = dget st.objs nid ndNil := by
      unfold setColumnsOf
      exact dget_dset_ne _ _ _ _ _ (fun hh => hne hh.symm)
    have hclean : selectCleanup parents children
        (setColumnsOf st pin
          (let set1 := splitCommaClean
            (pyStrip (pyOr (dget st.objs pin ndNil).columns "*"))
           let set2 := splitCommaClean
            (pyStrip (pyOr (dget st.objs nid ndNil).columns "*"))
           let composed := set1.filter (fun c => c ∈ set2)
           if composed ≠ [] then String.intercalate "," composed
           else "*")) nid =
        setColumnsOf st pin
          (let set1 := splitCommaClean
            (pyStrip (pyOr (dget st.objs pin ndNil).columns "*"))
           let set2 := splitCommaClean
            (pyStrip (pyOr (dget st.objs nid ndNil).columns "*"))
           let composed := set1.filter (fun c => c ∈ set2)
           if composed ≠ [] then String.intercalate "," composed
           else "*") := by
      unfold selectCleanup
      rw [hobjs]
      rw [if_neg (by rintro ⟨hh, -⟩; rcases hh with hh | hh
                     · exact hc2e hh
                     · exact hc2 hh)]
    rw [hclean]
    exact ⟨rfl, hpres, rfl⟩

/-! ## C5 — select–select fusion with both lists explicit -/

/-- C5 (amended): fusing a select node with its single select parent,
both column lists explicit, assigns to the parent the parent's list
filtered to names also in the child's list (in the parent's order), with
the wildcard `"*"` substituted when that intersection is empty; the
child is then spliced out **when it has exactly one incoming and one
outgoing edge** (the surviving edge `parent → child's child`).  A child
without that edge profile stays in the graph (see the counterexample)
while the parent's payload is overwritten regardless. -/
theorem select_fusion_intersection (st : OptState)
    (nid pin src dst : String)
    (parents children : List (String × List String))
    (hpres : nid ∈ st.present)
    (htype : (dget st.objs nid ndNil).ntype = "transform.select")
    (hpar : dget parents nid [] = [pin])
    (hpinpres : pin ∈ st.present)
    (hptype : (dget st.objs pin ndNil).ntype = "transform.select")
    (hne : pin ≠ nid)
    (hc1 : pyStrip (pyOr (dget st.objs pin ndNil).columns "*") ≠ "*")
    (hc2 : pyStrip (pyOr (dget st.objs nid ndNil).columns "*") ≠ "*")
    (hins : st.edges.filter (fun e => e.2 = nid) = [(src, nid)])
    (houts : st.edges.filter (fun e => e.1 = nid) = [(nid, dst)])
    (hsrc : src ≠ nid) (hdst : dst ≠ nid) :
    fuseStep parents children st nid =
      ⟨(setColumnsOf st pin
          (let set1 := splitCommaClean
            (pyStrip (pyOr (dget st.objs pin ndNil).columns "*"))
           let set2 := splitCommaClean
            (pyStrip (pyOr (dget st.objs nid ndNil).columns "*"))
           let composed := set1.filter (fun c => c ∈ set2)
           if composed ≠ [] then String.intercalate "," composed
           else "*")).objs,
       st.present.filter (· ≠ nid),
       st.edges.filter (fun e => e.1 ≠ nid ∧ e.2 ≠ nid) ++
         [(src, dst)]⟩ := by
  have hsel : (dget st.objs nid ndNil).ntype = "transform.select" ∧
      (dget parents nid []).length = 1 := ⟨htype, by rw [hpar]; rfl⟩
  have hstep : fuseStep parents children st nid =
      selectCleanup parents children
        (remove_node (setColumnsOf st pin
          (let set1 := splitCommaClean
            (pyStrip (pyOr (dget st.objs pin ndNil).columns "*"))
           let set2 := splitCommaClean
            (pyStrip (pyOr (dget st.objs nid ndNil).columns "*"))
           let composed := set1.filter (fun c => c ∈ set2)
           if composed ≠ [] then String.intercalate "," composed
           else "*")) nid) nid := by
    unfold fuseStep
    rw [if_pos hpres, if_pos hsel, hpar]
    simp only [List.headD_cons]
    rw [if_pos ⟨hpinpres, hptype⟩]
    rw [if_neg (by rintro ⟨hh, -⟩; exact hc1 hh)]
    rw [if_neg (by rintro ⟨-, hh⟩; exact hc2 hh)]
    rw [if_pos ⟨hc1, hc2⟩]
  rw [hstep]
  have hrem : remove_node (setColumnsOf st pin
      (let set1 := splitCommaClean
        (pyStrip (pyOr (dget st.objs pin ndNil).columns "*"))
       let set2 := splitCommaClean
        (pyStrip (pyOr (dget st.objs nid ndNil).columns "*"))
       let composed := set1.filter (fun c => c ∈ set2)
       if composed ≠ [] then String.intercalate "," composed
       else "*")) nid =
      ⟨(setColumnsOf st pin
          (let set1 := splitCommaClean
            (pyStrip (pyOr (dget st.objs pin ndNil).columns "*"))
           let set2 := splitCommaClean
            (pyStrip (pyOr (dget st.objs nid ndNil).columns "*"))
           let composed := set1.filter (fun c => c ∈ set2)
           if composed ≠ [] then String.intercalate "," composed
           else "*")).objs,
       st.present.filter (· ≠ nid),
       st.edges.filter (fun e => e.1 ≠ nid ∧ e.2 ≠ nid) ++
         [(src, dst)]⟩ := by
    unfold remove_node
    show (if _ ∧ _ then _ else _) = _
    rw [show (setColumnsOf st pin _).edges = st.edges from rfl]
    rw [hins, houts]
    simp
    rfl
  rw [hrem]
  unfold selectCleanup
  have hobjs2 : dget (setColumnsOf st pin
      (let set1 := splitCommaClean
        (pyStrip (pyOr (dget st.objs pin ndNil).columns "*"))
       let set2 := splitCommaClean
        (pyStrip (pyOr (dget st.objs nid ndNil).columns "*"))
       let composed := set1.filter (fun c => c ∈ set2)
       if composed ≠ [] then String.intercalate "," composed
       else "*")).objs nid ndNil = dget st.objs nid ndNil := by
    unfold setColumnsOf
    exact dget_dset_ne _ _ _ _ _ (fun hh => hne hh.symm)
  show (if _ then remove_node _ nid else _) = _
  rw [hobjs2]
  split_ifs with hcond
  · unfold remove_node
    rw [if_neg]
    rintro ⟨hlen, -⟩
    have : List.filter (fun e => decide (e.2 = nid))
        (st.edges.filter (fun e => e.1 ≠ nid ∧ e.2 ≠ nid) ++
          [(src, dst)]) = [] := by
      rw [List.filter_append]
      have h1 : List.filter (fun e => decide (e.2 = nid))
          (st.edges.filter (fun e => e.1 ≠ nid ∧ e.2 ≠ nid)) = [] := by
        rw [List.filter_eq_nil_iff]
        intro e he
        have := List.of_mem_filter he
        simp only [decide_eq_true_eq] at this ⊢
        exact this.2
      have h2 : List.filter (fun e => decide (e.2 = nid))
          [(src, dst)] = [] := by
        simp [hdst]
      rw [h1, h2]
      rfl
    rw [this] at hlen
    simp at hlen
  · rfl

/-- Witness for C5 on the chain `s → p(select "a,b") → n(select "b") → k`:
the parent's columns become `"b"` and the child `n` is spliced out,
leaving the edge `p → k`. -/
theorem select_fusion_instance :
    fuseStep (parentsMap [("s", "p"), ("p", "n"), ("n", "k")])
      (childrenMap [("s", "p"), ("p", "n"), ("n", "k")])
      ⟨[("s", ⟨"source.csv", "", ""⟩), ("p", ⟨"transform.select", "a,b", ""⟩),
        ("n", ⟨"transform.select", "b", ""⟩), ("k", ⟨"sink.csv", "", ""⟩)],
       ["s", "p", "n", "k"], [("s", "p"), ("p", "n"), ("n", "k")]⟩ "n" =
      ⟨[("s", ⟨"source.csv", "", ""⟩), ("p", ⟨"transform.select", "b", ""⟩),
        ("n", ⟨"transform.select", "b", ""⟩), ("k", ⟨"sink.csv", "", ""⟩)],
       ["s", "p", "k"], [("s", "p"), ("p", "k")]⟩ :=
  (select_fusion_intersection
    ⟨[("s", ⟨"source.csv", "", ""⟩), ("p", ⟨"transform.select", "a,b", ""⟩),
      ("n", ⟨"transform.select", "b", ""⟩), ("k", ⟨"sink.csv", "", ""⟩)],
     ["s", "p", "n", "k"], [("s", "p"), ("p", "n"), ("n", "k")]⟩
    "n" "p" "p" "k"
    (parentsMap [("s", "p"), ("p", "n"), ("n", "k")])
    (childrenMap [("s", "p"), ("p", "n"), ("n", "k")])
    (by decide) (by decide) (by decide) (by decide) (by decide) (by decide)
    (by decide) (by decide) (by decide) (by decide) (by decide)
    (by decide)).trans (by decide)

/-- C5 counterexample: `source → select("a,b") → select("b")` with the
child select terminal (no outgoing edge).  The claim says the child is
dropped; `combine_redundant` overwrites the parent's columns to `"b"`
but leaves the child in the graph, because `_remove_node` requires one
outgoing edge and the child has none. -/
theorem select_fusion_terminal_child_cex :
    combine_redundant
      [("s", ⟨"source.csv", "", ""⟩), ("p", ⟨"transform.select", "a,b", ""⟩),
       ("n", ⟨"transform.select", "b", ""⟩)]
      [("s", "p"), ("p", "n")] =
      ([("s", ⟨"source.csv", "", ""⟩),
        ("p", ⟨"transform.select", "b", ""⟩),
        ("n", ⟨"transform.select", "b", ""⟩)],
       [("s", "p"), ("p", "n")]) := by
  decide

/-! ## C9 — dead-node pruning and backward reachability -/

theorem predsFold_acc (edges : List (String × String))
    (d : List (String × List String)) (c : String) :
    dget (edges.foldl
      (fun d e => dset d e.2 (dget d e.2 [] ++ [e.1])) d) c [] =
    dget d c [] ++ (edges.filter (fun e => e.2 = c)).map Prod.fst := by
  induction edges generalizing d with
  | nil => simp
  | cons e rest ih =>
      simp only [List.foldl_cons, List.filter_cons]
      by_cases hce : e.2 = c
      · rw [ih]
        subst hce
        rw [dget_dset_self]
        simp
      · rw [ih]
        rw [dget_dset_ne _ _ _ _ _ (fun hh => hce hh.symm)]
        simp [hce]

theorem predsMap_spec (edges : List (String × String)) (c : String) :
    dget (predsMap edges) c [] =
      (edges.filter (fun e => e.2 = c)).map Prod.fst := by
  unfold predsMap
  rw [predsFold_acc]
  rfl

theorem foldl_push (l stack : List String) :
    l.foldl (fun s p => p :: s) stack = l.reverse ++ stack := by
  induction l generalizing stack with
  | nil => rfl
  | cons a rest ih => simp [ih]

theorem filter_length_le {α : Type} (l : List α) (p q : α → Bool)
    (himp : ∀ a, p a = true → q a = true) :
    (l.filter p).length ≤ (l.filter q).length := by
  induction l with
  | nil => simp
  | cons a rest ih =>
      by_cases hp : p a = true
      · simp only [List.filter_cons, if_pos hp, if_pos (himp a hp),
          List.length_cons]
        omega
      · by_cases hq : q a = true
        · simp only [List.filter_cons, if_neg hp, if_pos hq,
            List.length_cons]
          omega
        · simp only [List.filter_cons, if_neg hp, if_neg hq]
          exact ih

theorem filter_length_lt {α : Type} (l : List α) (p q : α → Bool)
    (himp : ∀ a, p a = true → q a = true) (x : α) (hx : x ∈ l)
    (hqx : q x = true) (hpx : p x = false) :
    (l.filter p).length < (l.filter q).length := by
  induction l with
  | nil => simp at hx
  | cons a rest ih =>
      rcases List.mem_cons.mp hx with rfl | hmem
      · have hle := filter_length_le rest p q himp
        have hnp : ¬ (p x = true) := by simp [hpx]
        simp only [List.filter_cons, if_neg hnp, if_pos hqx,
          List.length_cons]
        omega
      · by_cases hp : p a = true
        · simp only [List.filter_cons, if_pos hp, if_pos (himp a hp),
            List.length_cons]
          have := ih hmem
          omega
        · by_cases hq : q a = true
          · simp only [List.filter_cons, if_neg hp, if_pos hq,
              List.length_cons]
            have := ih hmem
            omega
          · simp only [List.filter_cons, if_neg hp, if_neg hq]
            exact ih hmem

theorem dfsRun_spec (edges : List (String × String)) (t : String) :
    ∀ (fuel : Nat) (keep stack : List String),
    (∀ x ∈ keep, ReachTo edges t x) →
    (∀ x ∈ stack, ReachTo edges t x) →
    (∀ x ∈ keep, ∀ e ∈ edges, e.2 = x → e.1 ∈ keep ∨ e.1 ∈ stack) →
    (t ∈ keep ∨ t ∈ stack) →
    (∀ x ∈ stack, x ∈ dfsUniverse edges t) →
    dfsMeasure edges t keep stack < fuel →
    (∀ x ∈ dfsRun (predsMap edges) fuel keep stack, ReachTo edges t x) ∧
    (∀ x ∈ dfsRun (predsMap edges) fuel keep stack, ∀ e ∈ edges,
      e.2 = x → e.1 ∈ dfsRun (predsMap edges) fuel keep stack) ∧
    t ∈ dfsRun (predsMap edges) fuel keep stack := by
  intro fuel
  induction fuel with
  | zero => intro keep stack _ _ _ _ _ hm; omega
  | succ f ih =>
      intro keep stack hk hs hcl ht hU hm
      cases stack with
      | nil =>
          simp only [dfsRun]
          refine ⟨hk, ?_, ?_⟩
          · intro x hx e he h2
            rcases hcl x hx e he h2 with h | h
            · exact h
            · simp at h
          · rcases ht with h | h
            · exact h
            · simp at h
      | cons cur rest =>
          simp only [dfsRun]
          by_cases hcur : cur ∈ keep
          · rw [if_pos hcur]
            refine ih keep rest hk (fun x hx => hs x (List.mem_cons_of_mem _ hx))
              ?_ ?_ (fun x hx => hU x (List.mem_cons_of_mem _ hx)) ?_
            · intro x hx e he h2
              rcases hcl x hx e he h2 with h | h
              · exact Or.inl h
              · rcases List.mem_cons.mp h with rfl | h
                · exact Or.inl hcur
                · exact Or.inr h
            · rcases ht with h | h
              · exact Or.inl h
              · rcases List.mem_cons.mp h with rfl | h
                · exact Or.inl hcur
                · exact Or.inr h
            · unfold dfsMeasure at hm ⊢
              simp only [List.length_cons] at hm
              omega
          · rw [if_neg hcur]
            rw [foldl_push]
            have hpreds : dget (predsMap edges) cur [] =
                (edges.filter (fun e => e.2 = cur)).map Prod.fst :=
              predsMap_spec edges cur
            have hpredsmem : ∀ x, x ∈ dget (predsMap edges) cur [] →
                (x, cur) ∈ edges := by
              intro x hx
              rw [hpreds] at hx
              obtain ⟨e, hef, hex⟩ := List.mem_map.mp hx
              have hee := List.mem_filter.mp hef
              have h2 : e.2 = cur := by simpa using hee.2
              have : e = (x, cur) := by
                obtain ⟨e1, e2⟩ := e
                simp only at hex h2
                rw [hex, h2]
              rw [← this]
              exact hee.1
            have hcurReach : ReachTo edges t cur := hs cur (List.mem_cons_self _ _)
            refine ih (cur :: keep)
              ((dget (predsMap edges) cur []).reverse ++ rest) ?_ ?_ ?_ ?_ ?_ ?_
            · intro x hx
              rcases List.mem_cons.mp hx with rfl | h
              · exact hcurReach
              · exact hk x h
            · intro x hx
              rcases List.mem_append.mp hx with h | h
              · exact ReachTo.head (hpredsmem x (List.mem_reverse.mp h))
                  hcurReach
              · exact hs x (List.mem_cons_of_mem _ h)
            · intro x hx e he h2
              rcases List.mem_cons.mp hx with rfl | h
              · refine Or.inr (List.mem_append.mpr (Or.inl ?_))
                rw [List.mem_reverse, hpreds]
                exact List.mem_map.mpr ⟨e,
                  List.mem_filter.mpr ⟨he, by simpa using h2⟩, rfl⟩
              · rcases hcl x h e he h2 with hh | hh
                · exact Or.inl (List.mem_cons_of_mem _ hh)
                · rcases List.mem_cons.mp hh with rfl | hh
                  · exact Or.inl (List.mem_cons_self _ _)
                  · exact Or.inr (List.mem_append.mpr (Or.inr hh))
            · rcases ht with h | h
              · exact Or.inl (List.mem_cons_of_mem _ h)
              · rcases List.mem_cons.mp h with rfl | h
                · exact Or.inl (List.mem_cons_self _ _)
                · exact Or.inr (List.mem_append.mpr (Or.inr h))
            · intro x hx
              rcases List.mem_append.mp hx with h | h
              · rw [List.mem_reverse, hpreds] at h
                obtain ⟨e, hef, hex⟩ := List.mem_map.mp h
                exact List.mem_cons_of_mem _ (List.mem_map.mpr
                  ⟨e, (List.mem_filter.mp hef).1, hex⟩)
              · exact hU x (List.mem_cons_of_mem _ h)
            · have hlenp : (dget (predsMap edges) cur []).length ≤
                  edges.length := by
                rw [hpreds, List.length_map]
                exact List.length_filter_le _ _
              have hcount : notKeepCount edges t (cur :: keep) <
                  notKeepCount edges t keep := by
                unfold notKeepCount
                refine filter_length_lt _ _ _ ?_ cur
                  (hU cur (List.mem_cons_self _ _)) ?_ ?_
                · intro a ha
                  simp only [decide_eq_true_eq] at ha ⊢
                  intro hmem
                  exact ha (List.mem_cons_of_mem _ hmem)
                · simpa using hcur
                · simp
              unfold dfsMeasure at hm ⊢
              simp only [List.length_cons, List.length_append,
                List.length_reverse] at hm ⊢
              have hmul : (edges.length + 2) *
                  (notKeepCount edges t (cur :: keep)) + (edges.length + 2) ≤
                  (edges.length + 2) * notKeepCount edges t keep := by
                have h1 : notKeepCount edges t (cur :: keep) + 1 ≤
                    notKeepCount edges t keep := hcount
                calc (edges.length + 2) * (notKeepCount edges t (cur :: keep)) +
                      (edges.length + 2)
                    = (edges.length + 2) *
                      (notKeepCount edges t (cur :: keep) + 1) := by ring
                  _ ≤ (edges.length + 2) * notKeepCount edges t keep :=
                      Nat.mul_le_mul_left _ h1
              omega

/-- C9: `prune_dead` with an absent target is the identity on nodes and
edges; with a (non-empty) target present, the surviving nodes are
exactly the input nodes backward-reachable to the target (the target
itself included, `Reach` being reflexive), and the surviving edges are
exactly the input edges whose two endpoints both survive. -/
theorem prune_dead_ancestors (nodes : List (String × NData))
    (edges : List (String × String)) (t : String) :
    prune_dead nodes edges none = (nodes, edges) ∧
    (t ≠ "" → ∀ n, n ∈ (prune_dead nodes edges (some t)).1 ↔
      n ∈ nodes ∧ ReachTo edges t n.1) ∧
    (t ≠ "" → ∀ e, e ∈ (prune_dead nodes edges (some t)).2 ↔
      e ∈ edges ∧ ReachTo edges t e.1 ∧ ReachTo edges t e.2) := by
  have hkeep : ∀ x,
      x ∈ dfsRun (predsMap edges) (dfsFuel edges) [] [t] ↔
      ReachTo edges t x := by
    intro x
    have hspec := dfsRun_spec edges t (dfsFuel edges) [] [t]
      (by intro x hx; simp at hx)
      (by intro x hx
          rcases List.mem_cons.mp hx with rfl | hx
          · exact ReachTo.refl
          · simp at hx)
      (by intro x hx; simp at hx)
      (Or.inr (List.mem_cons_self _ _))
      (by intro x hx
          rcases List.mem_cons.mp hx with rfl | hx
          · exact List.mem_cons_self _ _
          · simp at hx)
      (by
        unfold dfsMeasure dfsFuel
        have hc : notKeepCount edges t [] ≤ 1 + edges.length := by
          unfold notKeepCount dfsUniverse
          calc (List.filter _ (t :: edges.map Prod.fst)).length
              ≤ (t :: edges.map Prod.fst).length :=
                List.length_filter_le _ _
            _ = 1 + edges.length := by simp [Nat.add_comm]
        have hmul : (edges.length + 2) * notKeepCount edges t [] ≤
            (edges.length + 2) * (1 + edges.length) :=
          Nat.mul_le_mul_left _ hc
        simp only [List.length_cons, List.length_nil]
        omega)
    constructor
    · intro hx
      exact hspec.1 x hx
    · intro hr
      induction hr with
      | refl => exact hspec.2.2
      | head hab _ ihr => exact hspec.2.1 _ ihr _ hab rfl
  refine ⟨rfl, ?_, ?_⟩
  · intro ht n
    simp only [prune_dead]
    rw [if_neg ht]
    simp only [List.mem_filter, decide_eq_true_eq]
    rw [hkeep]
  · intro ht e
    simp only [prune_dead]
    rw [if_neg ht]
    simp only [List.mem_filter, decide_eq_true_eq]
    rw [hkeep, hkeep]

/-! ## C1 — interpreter fault isolation -/

theorem mapIdx_congr_const {α β : Type} (l : List α) (g : Nat → α → β)
    (f : α → β) (h : ∀ i a, g i a = f a) :
    l.mapIdx g = l.map f := by
  induction l generalizing g with
  | nil => rfl
  | cons a rest ih =>
      rw [List.mapIdx_cons, List.map_cons, h]
      rw [ih (fun i => g (i + 1)) (fun i a => h (i + 1) a)]

theorem getD_replicate_none (n i : Nat) :
    (List.replicate n (none : Val)).getD i none = none := by
  induction n generalizing i with
  | zero => simp [List.getD]
  | succ m ih =>
      match i with
      | 0 => rfl
      | j + 1 => simpa [List.replicate] using ih j

theorem getD_set_same (l : List Val) (j : Nat) :
    (l.set j (none : Val)).getD j none = none := by
  induction l generalizing j with
  | nil => simp [List.getD]
  | cons a rest ih =>
      match j with
      | 0 => rfl
      | k + 1 => simpa using ih k

theorem map_eq_replicate {α : Type} (l : List α) (f : α → Val)
    (h : ∀ x ∈ l, f x = none) : l.map f = List.replicate l.length none := by
  induction l with
  | nil => rfl
  | cons a rest ih =>
      simp only [List.map_cons, List.length_cons, List.replicate_succ,
        h a (List.mem_cons_self _ _)]
      rw [ih (fun x hx => h x (List.mem_cons_of_mem _ hx))]

theorem indexOf_append_self (cols : List String) (c : String)
    (hc : c ∉ cols) : (cols ++ [c]).indexOf c = cols.length := by
  induction cols with
  | nil => simp
  | cons a rest ih =>
      have hac : a ≠ c := fun hh => hc (hh ▸ List.mem_cons_self _ _)
      have hcr : c ∉ rest := fun hh => hc (List.mem_cons_of_mem _ hh)
      have hbeq : (a == c) = false := by
        simp [hac]
      simp only [List.cons_append, List.indexOf_cons, hbeq, cond_false,
        List.length_cons]
      rw [ih hcr]

theorem getD_append_len (row : List Val) :
    ((row ++ [(none : Val)]).getD row.length none) = none := by
  induction row with
  | nil => rfl
  | cons a rest ih => simpa using ih

/-- `df[c] = None` keeps the row count and sets every value of column
`c` to the null marker. -/
theorem setCol_nulls_spec (t : Table) (c : String)
    (hwf : ∀ row ∈ t.rows, row.length = t.cols.length) :
    (setCol t c (List.replicate t.rows.length none)).rows.length =
      t.rows.length ∧
    colVals (setCol t c (List.replicate t.rows.length none)) c =
      List.replicate t.rows.length none := by
  unfold setCol
  by_cases hc : c ∈ t.cols
  · rw [if_pos hc]
    have hrows : t.rows.mapIdx (fun i row =>
        row.set (t.cols.indexOf c)
          ((List.replicate t.rows.length (none : Val)).getD i none)) =
        t.rows.map (fun row => row.set (t.cols.indexOf c) none) := by
      apply mapIdx_congr_const
      intro i row
      rw [getD_replicate_none]
    constructor
    · simp only [hrows, List.length_map]
    · unfold colVals
      simp only [hrows, List.map_map]
      exact map_eq_replicate _ _
        (fun row _ => getD_set_same row (t.cols.indexOf c))
  · rw [if_neg hc]
    have hrows : t.rows.mapIdx (fun i row =>
        row ++ [(List.replicate t.rows.length (none : Val)).getD i none]) =
        t.rows.map (fun row => row ++ [none]) := by
      apply mapIdx_congr_const
      intro i row
      rw [getD_replicate_none]
    constructor
    · simp only [hrows, List.length_map]
    · unfold colVals
      simp only [hrows, List.map_map]
      rw [indexOf_append_self t.cols c hc]
      apply map_eq_replicate
      intro row hrow
      simp only [Function.comp]
      rw [← hwf row hrow]
      exact getD_append_len row

theorem mem_dkeys_dset {β : Type} (d : List (String × β)) (k a : String)
    (v : β) (h : a ∈ dkeys d ∨ a = k) : a ∈ dkeys (dset d k v) := by
  induction d with
  | nil =>
      rcases h with h | h
      · simp [dkeys] at h
      · simp [dset, dkeys, h]
  | cons p rest ih =>
      obtain ⟨k', v'⟩ := p
      simp only [dset]
      by_cases hk : k' = k
      · rw [if_pos hk]
        simp only [dkeys, List.map_cons, List.mem_cons]
        rcases h with h | h
        · have h' : a = k' ∨ a ∈ dkeys rest := by
            simpa [dkeys] using h
          rcases h' with h2 | h2
          · exact Or.inl (by rw [h2, hk])
          · exact Or.inr h2
        · exact Or.inl h
      · rw [if_neg hk]
        simp only [dkeys, List.map_cons, List.mem_cons]
        rcases h with h | h
        · have h' : a = k' ∨ a ∈ dkeys rest := by
            simpa [dkeys] using h
          rcases h' with h2 | h2
          · exact Or.inl h2
          · exact Or.inr (ih (Or.inl h2))
        · exact Or.inr (ih (Or.inr h))

theorem stepNode_frames (orc : Oracles)
    (parents : List (String × List String)) (st : ExecState) (x : WNode) :
    ∃ df, (stepNode orc parents st x).frames = dset st.frames x.id df := by
  cases hb : nodeBody orc ((dget parents x.id []).map
      (fun q => dget st.frames q emptyTable)) x with
  | ok v =>
      obtain ⟨df, mo⟩ := v
      cases mo with
      | none => exact ⟨df, by simp [stepNode, hb]⟩
      | some m2 => exact ⟨df, by simp [stepNode, hb]⟩
  | error m2 => exact ⟨emptyTable, by simp [stepNode, hb]⟩

theorem execLoop_keys_mono (orc : Oracles)
    (parents : List (String × List String)) :
    ∀ (ns : List WNode) (st : ExecState) (a : String),
    a ∈ dkeys st.frames →
    a ∈ dkeys (execLoop orc parents st ns).frames := by
  intro ns
  induction ns with
  | nil => exact fun st a h => h
  | cons x rest ih =>
      intro st a h
      show a ∈ dkeys (execLoop orc parents
        (stepNode orc parents st x) rest).frames
      apply ih
      obtain ⟨df, hdf⟩ := stepNode_frames orc parents st x
      rw [hdf]
      exact mem_dkeys_dset _ _ _ _ (Or.inl h)

/-- C1: the interpreter loop's fault isolation.  (i) A node whose body
raises gets its message recorded in the error map and an **empty table**
as its frame, and the loop continues with the remaining nodes.  (ii) A
filter node whose predicate evaluation (`df.query`) fails falls back to
the *unchanged parent table* and still records an error.  (iii) A
formula/derive node whose expression evaluation (`df.eval`) fails keeps
the parent's table with the new column set to `None`, and still records
an error; (iv) that null-filled column keeps the parent's row count and
holds the null marker in every row.  (v) Execution never aborts: every
node of the order receives a frame entry. -/
theorem exec_fault_isolation (orc : Oracles)
    (parents : List (String × List String)) (st : ExecState)
    (n : WNode) (rest ns : List WNode) (m p : String)
    (ptl : List String) :
    (nodeBody orc ((dget parents n.id []).map
        (fun q => dget st.frames q emptyTable)) n = .error m →
      execLoop orc parents st (n :: rest) =
        execLoop orc parents
          ⟨dset st.frames n.id emptyTable, dset st.errors n.id m⟩ rest) ∧
    (n.ntype = "transform.filter" →
      dget parents n.id [] = p :: ptl →
      orc.runQuery (dget st.frames p emptyTable) (pyOr n.expr "True") =
        none →
      execLoop orc parents st (n :: rest) =
        execLoop orc parents
          ⟨dset st.frames n.id (dget st.frames p emptyTable),
           dset st.errors n.id
             ("Filter expression failed; returned input unchanged. expr="
               ++ pyOr n.expr "True")⟩ rest) ∧
    (n.ntype = "transform.formula" →
      dget parents n.id [] = p :: ptl →
      orc.evalExpr (dget st.frames p emptyTable) (pyOr n.expr "0") =
        none →
      execLoop orc parents st (n :: rest) =
        execLoop orc parents
          ⟨dset st.frames n.id
             (setCol (dget st.frames p emptyTable)
               (pyOr n.newCol "new_column")
               (List.replicate (dget st.frames p emptyTable).rows.length
                 none)),
           dset st.errors n.id
             ("Formula evaluation failed; filled " ++
               pyOr n.newCol "new_column" ++ " with nulls. expr=" ++
               pyOr n.expr "0")⟩ rest) ∧
    ((∀ row ∈ (dget st.frames p emptyTable).rows,
        row.length = (dget st.frames p emptyTable).cols.length) →
      (setCol (dget st.frames p emptyTable) (pyOr n.newCol "new_column")
        (List.replicate (dget st.frames p emptyTable).rows.length
          none)).rows.length =
        (dget st.frames p emptyTable).rows.length ∧
      colVals (setCol (dget st.frames p emptyTable)
        (pyOr n.newCol "new_column")
        (List.replicate (dget st.frames p emptyTable).rows.length none))
        (pyOr n.newCol "new_column") =
        List.replicate (dget st.frames p emptyTable).rows.length none) ∧
    (∀ x ∈ ns, x.id ∈ dkeys (execLoop orc parents st ns).frames) := by
  refine ⟨?_, ?_, ?_, ?_, ?_⟩
  · intro hb
    have hstep : stepNode orc parents st n =
        ⟨dset st.frames n.id emptyTable, dset st.errors n.id m⟩ := by
      unfold stepNode
      rw [hb]
    show execLoop orc parents (stepNode orc parents st n) rest = _
    rw [hstep]
  · intro htype hpar hq
    have hb : nodeBody orc ((dget parents n.id []).map
        (fun q => dget st.frames q emptyTable)) n =
        .ok (dget st.frames p emptyTable, some
          ("Filter expression failed; returned input unchanged. expr="
            ++ pyOr n.expr "True")) := by
      simp only [nodeBody]
      rw [htype, hpar]
      show (match orc.runQuery (dget st.frames p emptyTable)
          (pyOr n.expr "True") with
        | some df => Except.ok (df, none)
        | none => Except.ok (dget st.frames p emptyTable, some
            ("Filter expression failed; returned input unchanged. expr="
              ++ pyOr n.expr "True"))) = _
      rw [hq]
    have hstep : stepNode orc parents st n =
        ⟨dset st.frames n.id (dget st.frames p emptyTable),
         dset st.errors n.id
           ("Filter expression failed; returned input unchanged. expr="
             ++ pyOr n.expr "True")⟩ := by
      unfold stepNode
      rw [hb]
    show execLoop orc parents (stepNode orc parents st n) rest = _
    rw [hstep]
  · intro htype hpar he
    have hb : nodeBody orc ((dget parents n.id []).map
        (fun q => dget st.frames q emptyTable)) n =
        .ok (setCol (dget st.frames p emptyTable)
            (pyOr n.newCol "new_column")
            (List.replicate (dget st.frames p emptyTable).rows.length
              none), some
          ("Formula evaluation failed; filled " ++
            pyOr n.newCol "new_column" ++ " with nulls. expr=" ++
            pyOr n.expr "0")) := by
      simp only [nodeBody]
      rw [htype, hpar]
      show (match orc.evalExpr (dget st.frames p emptyTable)
          (pyOr n.expr "0") with
        | some vals => Except.ok (setCol (dget st.frames p emptyTable)
            (pyOr n.newCol "new_column") vals, none)
        | none => Except.ok (setCol (dget st.frames p emptyTable)
            (pyOr n.newCol "new_column")
            (List.replicate (dget st.frames p emptyTable).rows.length
              none), some
            ("Formula evaluation failed; filled " ++
              pyOr n.newCol "new_column" ++ " with nulls. expr=" ++
              pyOr n.expr "0"))) = _
      rw [he]
    have hstep : stepNode orc parents st n =
        ⟨dset st.frames n.id
           (setCol (dget st.frames p emptyTable)
             (pyOr n.newCol "new_column")
             (List.replicate (dget st.frames p emptyTable).rows.length
               none)),
         dset st.errors n.id
           ("Formula evaluation failed; filled " ++
             pyOr n.newCol "new_column" ++ " with nulls. expr=" ++
             pyOr n.expr "0")⟩ := by
      unfold stepNode
      rw [hb]
    show execLoop orc parents (stepNode orc parents st n) rest = _
    rw [hstep]
  · intro hwf
    exact setCol_nulls_spec (dget st.frames p emptyTable)
      (pyOr n.newCol "new_column") hwf
  · intro x
    induction ns generalizing st with
    | nil => intro hx; simp at hx
    | cons a rest2 ih =>
        intro hx
        rcases List.mem_cons.mp hx with rfl | hx2
        · show x.id ∈ dkeys (execLoop orc parents
            (stepNode orc parents st x) rest2).frames
          apply execLoop_keys_mono
          obtain ⟨df, hdf⟩ := stepNode_frames orc parents st x
          rw [hdf]
          exact mem_dkeys_dset _ _ _ _ (Or.inr rfl)
        · show x.id ∈ dkeys (execLoop orc parents
            (stepNode orc parents st a) rest2).frames
          exact ih (stepNode orc parents st a) hx2

/-! ## C3 / C10 — Kahn's algorithm: termination measure -/

theorem posCount_dset (inc : IncMap) (k : String) (v : Int) :
    posCount (dset inc k v) + posVal (dget inc k 0) =
    posCount inc + posVal v := by
  have hsplit : ∀ (k0 : String) (w : Int) (tail : IncMap),
      posCount ((k0, w) :: tail) =
        (if 0 < w then 1 else 0) + posCount tail := by
    intro k0 w tail
    simp only [posCount, List.filter_cons]
    by_cases h0 : 0 < w
    · simp only [h0, decide_True, if_true, List.length_cons]
      omega
    · simp [h0]
  induction inc with
  | nil =>
      simp only [dset, dget, posCount, List.filter_nil, List.filter_cons,
        posVal]
      by_cases h : 0 < v <;> simp [h]
  | cons p rest ih =>
      obtain ⟨k', v'⟩ := p
      by_cases hk : k' = k
      · subst hk
        have hd1 : dset ((k', v') :: rest) k' v = (k', v) :: rest := by
          simp [dset]
        have hd2 : dget ((k', v') :: rest) k' 0 = v' := by
          simp [dget]
        rw [hd1, hd2, hsplit, hsplit]
        unfold posVal
        omega
      · have hd1 : dset ((k', v') :: rest) k v = (k', v') :: dset rest k v := by
          simp [dset, hk]
        have hd2 : dget ((k', v') :: rest) k 0 = dget rest k 0 := by
          simp [dget, hk]
        rw [hd1, hd2, hsplit, hsplit]
        omega

theorem measure_relaxOne (acc : IncMap × List String) (t : String) :
    (relaxOne acc t).2.length + posCount (relaxOne acc t).1 ≤
    acc.2.length + posCount acc.1 := by
  obtain ⟨inc, q⟩ := acc
  unfold relaxOne
  have hpc := posCount_dset inc t (dget inc t 0 - 1)
  by_cases hv : dget inc t 0 - 1 = 0
  · rw [if_pos hv]
    simp only [List.length_append, List.length_cons, List.length_nil]
    have hd : dget inc t 0 = 1 := by omega
    have h1 : posVal (dget inc t 0) = 1 := by rw [hd]; rfl
    have h2 : posVal (dget inc t 0 - 1) = 0 := by rw [hv]; rfl
    omega
  · rw [if_neg hv]
    simp only
    have h2 : posVal (dget inc t 0 - 1) ≤ posVal (dget inc t 0) := by
      unfold posVal
      by_cases h : 0 < dget inc t 0 - 1
      · rw [if_pos h, if_pos (by omega)]
      · rw [if_neg h]
        omega
    omega

theorem measure_fold (ts : List String) :
    ∀ (acc : IncMap × List String),
    (ts.foldl relaxOne acc).2.length + posCount (ts.foldl relaxOne acc).1 ≤
    acc.2.length + posCount acc.1 := by
  induction ts with
  | nil => intro acc; simp
  | cons t rest ih =>
      intro acc
      calc (((t :: rest).foldl relaxOne acc)).2.length +
            posCount ((t :: rest).foldl relaxOne acc).1
          = ((rest.foldl relaxOne (relaxOne acc t))).2.length +
            posCount (rest.foldl relaxOne (relaxOne acc t)).1 := rfl
        _ ≤ (relaxOne acc t).2.length + posCount (relaxOne acc t).1 :=
            ih (relaxOne acc t)
        _ ≤ acc.2.length + posCount acc.1 := measure_relaxOne acc t

/-! ### topoCore characterization -/

theorem dget_zero_fold (ns : List String) :
    ∀ (d : IncMap), (∀ c, dget d c 0 = 0) →
    ∀ c, dget (ns.foldl (fun d n => dset d n (0 : Int)) d) c 0 = 0 := by
  induction ns with
  | nil => exact fun d hd => hd
  | cons n rest ih =>
      intro d hd c
      refine ih (dset d n 0) ?_ c
      intro c'
      rw [dget_dset]
      split_ifs with h
      · rfl
      · exact hd c'

theorem inc_edges_fold (edges : List (String × String)) :
    ∀ (d : IncMap) (t : String),
    dget (edges.foldl (fun d e => dset d e.2 (dget d e.2 0 + 1)) d) t 0 =
    dget d t 0 + (indegE edges t : Int) := by
  induction edges with
  | nil => intro d t; simp [indegE]
  | cons e rest ih =>
      intro d t
      simp only [List.foldl_cons]
      rw [ih]
      unfold indegE
      rw [List.filter_cons, dget_dset]
      by_cases het : t = e.2
      · rw [if_pos het]
        have hc : decide (e.2 = t) = true := by simp [het]
        rw [hc, if_pos rfl]
        simp only [List.length_cons]
        rw [het]
        push_cast
        ring
      · rw [if_neg het]
        have hc : decide (e.2 = t) = false := by
          simp only [decide_eq_false_iff_not]
          exact fun hh => het hh.symm
        rw [hc, if_neg Bool.false_ne_true]

theorem inc_val_core (nodeIds : List String)
    (edges : List (String × String)) (t : String) :
    dget (topoCore nodeIds edges).1 t 0 = (indegE edges t : Int) := by
  unfold topoCore
  simp only
  rw [inc_edges_fold]
  rw [dget_zero_fold nodeIds [] (fun c => rfl) t]
  ring

theorem outs_edges_fold (edges : List (String × String)) :
    ∀ (d : OutsMap) (s : String),
    dget (edges.foldl (fun d e => dset d e.1 (dget d e.1 [] ++ [e.2])) d)
      s [] =
    dget d s [] ++ (edges.filter (fun e => e.1 = s)).map Prod.snd := by
  induction edges with
  | nil => intro d s; simp
  | cons e rest ih =>
      intro d s
      simp only [List.foldl_cons, List.filter_cons]
      rw [ih]
      by_cases hes : e.1 = s
      · subst hes
        rw [dget_dset_self]
        have hc : decide (e.1 = e.1) = true := by simp
        rw [hc, if_pos rfl]
        simp
      · rw [dget_dset_ne _ _ _ _ _ (fun hh => hes hh.symm)]
        have hc : decide (e.1 = s) = false := by
          simp only [decide_eq_false_iff_not]
          exact hes
        rw [hc, if_neg Bool.false_ne_true]

theorem dget_nil_fold (ns : List String) :
    ∀ (d : OutsMap), (∀ c, dget d c [] = []) →
    ∀ c, dget (ns.foldl (fun d n => dset d n ([] : List String)) d) c [] =
      [] := by
  induction ns with
  | nil => exact fun d hd => hd
  | cons n rest ih =>
      intro d hd c
      refine ih (dset d n []) ?_ c
      intro c'
      by_cases h : c' = n
      · subst h
        rw [dget_dset_self]
      · rw [dget_dset_ne _ _ _ _ _ h]
        exact hd c'

theorem outs_val_core (nodeIds : List String)
    (edges : List (String × String)) (s : String) :
    dget (topoCore nodeIds edges).2 s [] =
      (edges.filter (fun e => e.1 = s)).map Prod.snd := by
  unfold topoCore
  simp only
  rw [outs_edges_fold]
  rw [dget_nil_fold nodeIds [] (fun c => rfl) s]
  rfl

/-! ### Edge counting -/

theorem inFrom_le (edges : List (String × String)) (done : List String)
    (t : String) : inFrom edges done t ≤ indegE edges t := by
  unfold inFrom indegE
  apply filter_length_le
  intro a ha
  simp only [decide_eq_true_eq] at ha ⊢
  exact ha.1

theorem inFrom_eq_forall (edges : List (String × String))
    (done : List String) (t : String)
    (h : inFrom edges done t = indegE edges t) :
    ∀ e ∈ edges, e.2 = t → e.1 ∈ done := by
  by_contra hcon
  push_neg at hcon
  obtain ⟨e, he, h2, h1⟩ := hcon
  have hlt := filter_length_lt edges
    (fun e => decide (e.2 = t ∧ e.1 ∈ done)) (fun e => decide (e.2 = t))
    (by intro a ha; simp only [decide_eq_true_eq] at ha ⊢; exact ha.1)
    e he (by simp [h2]) (by simp [h2, h1])
  unfold inFrom indegE at h
  omega

theorem forall_inFrom_eq (edges : List (String × String))
    (done : List String) (t : String)
    (h : ∀ e ∈ edges, e.2 = t → e.1 ∈ done) :
    inFrom edges done t = indegE edges t := by
  unfold inFrom indegE
  congr 1
  apply List.filter_congr
  intro e he
  by_cases h2 : e.2 = t
  · simp [h2, h e he h2]
  · simp [h2]

theorem inFrom_append_one (edges : List (String × String))
    (done : List String) (nid t : String) (hnid : nid ∉ done) :
    inFrom edges (done ++ [nid]) t =
      inFrom edges done t + cntE edges nid t := by
  unfold inFrom cntE
  induction edges with
  | nil => rfl
  | cons e rest ih =>
      simp only [List.filter_cons]
      by_cases h2 : e.2 = t
      · by_cases h1 : e.1 ∈ done
        · have hno : e.1 ≠ nid := fun hh => hnid (hh ▸ h1)
          have hc1 : decide (e.2 = t ∧ e.1 ∈ done ++ [nid]) = true := by
            simp [h2, List.mem_append, h1]
          have hc2 : decide (e.2 = t ∧ e.1 ∈ done) = true := by
            simp [h2, h1]
          have hc3 : decide (e.1 = nid ∧ e.2 = t) = false := by
            simp only [decide_eq_false_iff_not]
            rintro ⟨hh, -⟩
            exact hno hh
          rw [hc1, hc2, hc3, if_pos rfl, if_pos rfl,
            if_neg Bool.false_ne_true]
          simp only [List.length_cons]
          omega
        · by_cases h3 : e.1 = nid
          · have hc1 : decide (e.2 = t ∧ e.1 ∈ done ++ [nid]) = true := by
              simp [h2, List.mem_append, h3]
            have hc2 : decide (e.2 = t ∧ e.1 ∈ done) = false := by
              simp only [decide_eq_false_iff_not]
              rintro ⟨-, hh⟩
              exact h1 hh
            have hc3 : decide (e.1 = nid ∧ e.2 = t) = true := by
              simp [h3, h2]
            rw [hc1, hc2, hc3, if_pos rfl, if_pos rfl,
              if_neg Bool.false_ne_true]
            simp only [List.length_cons]
            omega
          · have hc1 : decide (e.2 = t ∧ e.1 ∈ done ++ [nid]) = false := by
              simp only [decide_eq_false_iff_not]
              rintro ⟨-, hh⟩
              rcases List.mem_append.mp hh with hh | hh
              · exact h1 hh
              · exact h3 (by simpa using hh)
            have hc2 : decide (e.2 = t ∧ e.1 ∈ done) = false := by
              simp only [decide_eq_false_iff_not]
              rintro ⟨-, hh⟩
              exact h1 hh
            have hc3 : decide (e.1 = nid ∧ e.2 = t) = false := by
              simp only [decide_eq_false_iff_not]
              rintro ⟨hh, -⟩
              exact h3 hh
            rw [hc1, hc2, hc3, if_neg Bool.false_ne_true,
              if_neg Bool.false_ne_true, if_neg Bool.false_ne_true]
            exact ih
      · have hc1 : decide (e.2 = t ∧ e.1 ∈ done ++ [nid]) = false := by
          simp only [decide_eq_false_iff_not]
          rintro ⟨hh, -⟩
          exact h2 hh
        have hc2 : decide (e.2 = t ∧ e.1 ∈ done) = false := by
          simp only [decide_eq_false_iff_not]
          rintro ⟨hh, -⟩
          exact h2 hh
        have hc3 : decide (e.1 = nid ∧ e.2 = t) = false := by
          simp only [decide_eq_false_iff_not]
          rintro ⟨-, hh⟩
          exact h2 hh
        rw [hc1, hc2, hc3, if_neg Bool.false_ne_true,
          if_neg Bool.false_ne_true, if_neg Bool.false_ne_true]
        exact ih

theorem count_targets (edges : List (String × String)) (nid t : String) :
    ((edges.filter (fun e => e.1 = nid)).map Prod.snd).count t =
      cntE edges nid t := by
  unfold cntE
  induction edges with
  | nil => rfl
  | cons e rest ih =>
      simp only [List.filter_cons]
      by_cases h1 : e.1 = nid
      · have hc : decide (e.1 = nid) = true := by simp [h1]
        rw [hc, if_pos rfl]
        simp only [List.map_cons]
        by_cases h2 : e.2 = t
        · have hc2 : decide (e.1 = nid ∧ e.2 = t) = true := by
            simp [h1, h2]
          rw [hc2, if_pos rfl]
          simp only [List.length_cons]
          rw [List.count_cons]
          have hbeq : (e.2 == t) = true := by simp [h2]
          rw [hbeq]
          simp only [if_true, cond_true]
          omega
        · have hc2 : decide (e.1 = nid ∧ e.2 = t) = false := by
            simp only [decide_eq_false_iff_not]
            rintro ⟨-, hh⟩
            exact h2 hh
          rw [hc2, if_neg Bool.false_ne_true]
          rw [List.count_cons]
          have hbeq : (e.2 == t) = false := by
            simp only [beq_eq_false_iff_ne, ne_eq]
            exact h2
          rw [hbeq]
          simp only [Bool.false_eq_true, if_false]
          omega
      · have hc : decide (e.1 = nid) = false := by
          simp only [decide_eq_false_iff_not]
          exact h1
        rw [hc, if_neg Bool.false_ne_true]
        have hc2 : decide (e.1 = nid ∧ e.2 = t) = false := by
          simp only [decide_eq_false_iff_not]
          rintro ⟨hh, -⟩
          exact h1 hh
        rw [hc2, if_neg Bool.false_ne_true]
        exact ih

/-! ### The relaxation fold, described by `hitList` -/

theorem relaxOne_eq (inc : IncMap) (q : List String) (t : String) :
    relaxOne (inc, q) t =
      (dset inc t (dget inc t 0 - 1),
       if dget inc t 0 - 1 = 0 then q ++ [t] else q) := by
  unfold relaxOne
  by_cases hv : dget inc t 0 - 1 = 0
  · rw [if_pos hv, if_pos hv]
  · rw [if_neg hv, if_neg hv]

theorem hitList_cons (t : String) (rest : List String) (inc : IncMap) :
    hitList (t :: rest) inc =
      if dget inc t 0 - 1 = 0
      then t :: hitList rest (dset inc t (dget inc t 0 - 1))
      else hitList rest (dset inc t (dget inc t 0 - 1)) := rfl

theorem fold_snd (ts : List String) :
    ∀ (inc : IncMap) (q : List String),
    (ts.foldl relaxOne (inc, q)).2 = q ++ hitList ts inc := by
  induction ts with
  | nil => intro inc q; simp [hitList]
  | cons t rest ih =>
      intro inc q
      rw [List.foldl_cons, relaxOne_eq, hitList_cons]
      by_cases hv : dget inc t 0 - 1 = 0
      · rw [if_pos hv, if_pos hv]
        rw [ih]
        simp
      · rw [if_neg hv, if_neg hv]
        rw [ih]

theorem fold_fst_val (ts : List String) :
    ∀ (inc : IncMap) (q : List String) (t : String),
    dget ((ts.foldl relaxOne (inc, q)).1) t 0 =
      dget inc t 0 - (ts.count t : Int) := by
  induction ts with
  | nil => intro inc q t; simp
  | cons u rest ih =>
      intro inc q t
      rw [List.foldl_cons, relaxOne_eq]
      have htail : ∀ (q' : List String),
          dget ((rest.foldl relaxOne
            (dset inc u (dget inc u 0 - 1), q')).1) t 0 =
          dget (dset inc u (dget inc u 0 - 1)) t 0 -
            (rest.count t : Int) := fun q' => ih _ q' t
      by_cases hv : dget inc u 0 - 1 = 0
      · rw [if_pos hv]
        rw [htail, dget_dset]
        by_cases hut : t = u
        · subst hut
          rw [if_pos rfl, List.count_cons_self]
          push_cast
          ring
        · rw [if_neg hut]
          have hcnt : (u :: rest).count t = rest.count t := by
            rw [List.count_cons]
            have hbeq : (u == t) = false := by
              simp only [beq_eq_false_iff_ne, ne_eq]
              exact fun hh => hut hh.symm
            rw [hbeq]
            simp
          rw [hcnt]
      · rw [if_neg hv]
        rw [htail, dget_dset]
        by_cases hut : t = u
        · subst hut
          rw [if_pos rfl, List.count_cons_self]
          push_cast
          ring
        · rw [if_neg hut]
          have hcnt : (u :: rest).count t = rest.count t := by
            rw [List.count_cons]
            have hbeq : (u == t) = false := by
              simp only [beq_eq_false_iff_ne, ne_eq]
              exact fun hh => hut hh.symm
            rw [hbeq]
            simp
          rw [hcnt]

theorem count_cons_self_int (u : String) (rest : List String) :
    (((u :: rest).count u : Int)) = (rest.count u : Int) + 1 := by
  rw [List.count_cons_self]
  push_cast
  ring

theorem count_cons_ne (u t : String) (rest : List String) (h : t ≠ u) :
    (u :: rest).count t = rest.count t := by
  rw [List.count_cons]
  have hbeq : (u == t) = false := by
    simp only [beq_eq_false_iff_ne, ne_eq]
    exact fun hh => h hh.symm
  rw [hbeq]
  simp

theorem hnn_step (u : String) (rest : List String) (inc : IncMap)
    (hnn : ∀ w, 0 ≤ dget inc w 0 - (((u :: rest).count w : Nat) : Int)) :
    ∀ w, 0 ≤ dget (dset inc u (dget inc u 0 - 1)) w 0 -
      ((rest.count w : Nat) : Int) := by
  intro w
  rw [dget_dset]
  by_cases hwu : w = u
  · subst hwu
    rw [if_pos rfl]
    have h1 := hnn w
    have h2 := count_cons_self_int w rest
    omega
  · rw [if_neg hwu]
    have h1 := hnn w
    have h2 : (u :: rest).count w = rest.count w := count_cons_ne u w rest hwu
    omega

theorem hit_mem (ts : List String) :
    ∀ (inc : IncMap) (x : String),
    (∀ w, 0 ≤ dget inc w 0 - ((ts.count w : Nat) : Int)) →
    (x ∈ hitList ts inc ↔
      (0 < ts.count x ∧ dget inc x 0 = ((ts.count x : Nat) : Int))) := by
  induction ts with
  | nil => intro inc x hnn; simp [hitList]
  | cons u rest ih =>
      intro inc x hnn
      have hnn' := hnn_step u rest inc hnn
      rw [hitList_cons]
      by_cases hv : dget inc u 0 - 1 = 0
      · rw [if_pos hv, List.mem_cons, ih _ x hnn']
        by_cases hxu : x = u
        · subst hxu
          have hru : rest.count x = 0 := by
            have := hnn' x
            rw [dget_dset, if_pos rfl, hv] at this
            omega
          have hcc := count_cons_self_int x rest
          constructor
          · intro _
            constructor
            · rw [List.count_cons_self]
              omega
            · omega
          · intro _
            exact Or.inl rfl
        · have hcnt := count_cons_ne u x rest hxu
          rw [dget_dset, if_neg hxu]
          constructor
          · rintro (h | ⟨h1, h2⟩)
            · exact absurd h hxu
            · exact ⟨by omega, by omega⟩
          · rintro ⟨h1, h2⟩
            exact Or.inr ⟨by omega, by omega⟩
      · rw [if_neg hv, ih _ x hnn']
        by_cases hxu : x = u
        · subst hxu
          rw [dget_dset, if_pos rfl]
          have hcc := count_cons_self_int x rest
          constructor
          · rintro ⟨h1, h2⟩
            exact ⟨by omega, by omega⟩
          · rintro ⟨h1, h2⟩
            have hpos : 0 < rest.count x := by
              by_contra hcz
              have : rest.count x = 0 := by omega
              rw [this] at hcc
              omega
            exact ⟨hpos, by omega⟩
        · have hcnt := count_cons_ne u x rest hxu
          rw [dget_dset, if_neg hxu]
          constructor
          · rintro ⟨h1, h2⟩
            exact ⟨by omega, by omega⟩
          · rintro ⟨h1, h2⟩
            exact ⟨by omega, by omega⟩

theorem hit_nodup (ts : List String) :
    ∀ (inc : IncMap),
    (∀ w, 0 ≤ dget inc w 0 - ((ts.count w : Nat) : Int)) →
    (hitList ts inc).Nodup := by
  induction ts with
  | nil => intro inc hnn; simp [hitList]
  | cons u rest ih =>
      intro inc hnn
      have hnn' := hnn_step u rest inc hnn
      rw [hitList_cons]
      by_cases hv : dget inc u 0 - 1 = 0
      · rw [if_pos hv]
        refine List.nodup_cons.mpr ⟨?_, ih _ hnn'⟩
        intro hmem
        rw [hit_mem rest _ u hnn'] at hmem
        obtain ⟨hpos, heq⟩ := hmem
        rw [dget_dset, if_pos rfl, hv] at heq
        omega
      · rw [if_neg hv]
        exact ih _ hnn'

/-! ### Dict-key facts for the initial queues -/

theorem mem_dkeys_dset_iff {β : Type} (d : List (String × β)) (k a : String)
    (v : β) : a ∈ dkeys (dset d k v) ↔ a ∈ dkeys d ∨ a = k := by
  induction d with
  | nil => simp [dset, dkeys, eq_comm]
  | cons p rest ih =>
      obtain ⟨k', v'⟩ := p
      simp only [dset]
      by_cases h : k' = k
      · rw [if_pos h]
        subst h
        simp only [dkeys, List.map_cons, List.mem_cons]
        tauto
      · rw [if_neg h]
        simp only [dkeys, List.map_cons, List.mem_cons] at ih ⊢
        rw [ih]
        tauto

theorem nodup_dkeys_dset {β : Type} (d : List (String × β)) (k : String)
    (v : β) (h : (dkeys d).Nodup) : (dkeys (dset d k v)).Nodup := by
  induction d with
  | nil => simp [dset, dkeys]
  | cons p rest ih =>
      obtain ⟨k', v'⟩ := p
      simp only [dkeys, List.map_cons, List.nodup_cons] at h
      obtain ⟨hk', hrest⟩ := h
      simp only [dset]
      by_cases hkk : k' = k
      · rw [if_pos hkk]
        subst hkk
        simp only [dkeys, List.map_cons, List.nodup_cons]
        exact ⟨hk', hrest⟩
      · rw [if_neg hkk]
        simp only [dkeys, List.map_cons, List.nodup_cons]
        refine ⟨?_, ih hrest⟩
        intro hmem
        rcases (mem_dkeys_dset_iff rest k k' v).mp hmem with hh | hh
        · exact hk' hh
        · exact hkk hh

theorem dget_mem {β : Type} (d : List (String × β)) (t : String) (v0 : β)
    (h : t ∈ dkeys d) : (t, dget d t v0) ∈ d := by
  induction d with
  | nil => simp [dkeys] at h
  | cons p rest ih =>
      obtain ⟨k', v'⟩ := p
      simp only [dget]
      by_cases hk : k' = t
      · rw [if_pos hk]
        subst hk
        exact List.mem_cons_self _ _
      · rw [if_neg hk]
        simp only [dkeys, List.map_cons, List.mem_cons] at h
        rcases h with h | h
        · exact absurd h.symm hk
        · exact List.mem_cons_of_mem _ (ih h)

theorem mem_dget {β : Type} (d : List (String × β)) (t : String) (v v0 : β)
    (hnd : (dkeys d).Nodup) (h : (t, v) ∈ d) : dget d t v0 = v := by
  induction d with
  | nil => simp at h
  | cons p rest ih =>
      obtain ⟨k', v'⟩ := p
      simp only [dkeys, List.map_cons, List.nodup_cons] at hnd
      obtain ⟨hk', hrest⟩ := hnd
      simp only [dget]
      rcases List.mem_cons.mp h with h | h
      · have h1 : k' = t := by
          have := congrArg Prod.fst h.symm
          simpa using this
        have h2 : v' = v := by
          have := congrArg Prod.snd h.symm
          simpa using this
        rw [if_pos h1, h2]
      · by_cases hk : k' = t
        · exfalso
          apply hk'
          subst hk
          exact List.mem_map.mpr ⟨(k', v), h, rfl⟩
        · rw [if_neg hk]
          exact ih hrest h

theorem mem_dkeys_zero_fold (ns : List String) :
    ∀ (d : IncMap) (x : String),
    (x ∈ dkeys (ns.foldl (fun d n => dset d n (0 : Int)) d) ↔
      x ∈ dkeys d ∨ x ∈ ns) := by
  induction ns with
  | nil => intro d x; simp
  | cons n rest ih =>
      intro d x
      simp only [List.foldl_cons]
      rw [ih]
      rw [mem_dkeys_dset_iff]
      simp only [List.mem_cons]
      tauto

theorem mem_dkeys_inc_fold (edges : List (String × String)) :
    ∀ (d : IncMap) (x : String),
    (x ∈ dkeys (edges.foldl (fun d e => dset d e.2 (dget d e.2 0 + 1)) d) ↔
      x ∈ dkeys d ∨ ∃ e ∈ edges, e.2 = x) := by
  induction edges with
  | nil => intro d x; simp
  | cons e rest ih =>
      intro d x
      simp only [List.foldl_cons]
      rw [ih]
      rw [mem_dkeys_dset_iff]
      simp only [List.mem_cons]
      constructor
      · rintro (( h | h) | ⟨e', he', hx⟩)
        · exact Or.inl h
        · exact Or.inr ⟨e, Or.inl rfl, h.symm⟩
        · exact Or.inr ⟨e', Or.inr he', hx⟩
      · rintro (h | ⟨e', he' | he', hx⟩)
        · exact Or.inl (Or.inl h)
        · exact Or.inl (Or.inr (by rw [← hx, he']))
        · exact Or.inr ⟨e', he', hx⟩

theorem nodup_dkeys_zero_fold (ns : List String) :
    ∀ (d : IncMap), (dkeys d).Nodup →
    (dkeys (ns.foldl (fun d n => dset d n (0 : Int)) d)).Nodup := by
  induction ns with
  | nil => exact fun d h => h
  | cons n rest ih =>
      intro d h
      exact ih _ (nodup_dkeys_dset d n 0 h)

theorem nodup_dkeys_inc_fold (edges : List (String × String)) :
    ∀ (d : IncMap), (dkeys d).Nodup →
    (dkeys (edges.foldl
      (fun d e => dset d e.2 (dget d e.2 0 + 1)) d)).Nodup := by
  induction edges with
  | nil => exact fun d h => h
  | cons e rest ih =>
      intro d h
      exact ih _ (nodup_dkeys_dset d e.2 _ h)

theorem mem_dkeys_core (nodeIds : List String)
    (edges : List (String × String)) (x : String) :
    x ∈ dkeys (topoCore nodeIds edges).1 ↔
      x ∈ nodeIds ∨ ∃ e ∈ edges, e.2 = x := by
  unfold topoCore
  simp only
  rw [mem_dkeys_inc_fold, mem_dkeys_zero_fold]
  simp [dkeys]

theorem nodup_dkeys_core (nodeIds : List String)
    (edges : List (String × String)) :
    (dkeys (topoCore nodeIds edges).1).Nodup := by
  unfold topoCore
  simp only
  apply nodup_dkeys_inc_fold
  apply nodup_dkeys_zero_fold
  simp [dkeys]

/-! ### One loop iteration preserves the invariant -/

theorem cnt_pos_mem (edges : List (String × String)) (s t : String)
    (h : 0 < cntE edges s t) : (s, t) ∈ edges := by
  unfold cntE at h
  obtain ⟨a, ha⟩ := List.exists_mem_of_length_pos h
  obtain ⟨hmem, hcond⟩ := List.mem_filter.mp ha
  simp only [decide_eq_true_eq] at hcond
  obtain ⟨h1, h2⟩ := hcond
  rcases a with ⟨a1, a2⟩
  simp only at h1 h2
  rw [← h1, ← h2]
  exact hmem

theorem inFrom_nil (edges : List (String × String)) (t : String) :
    inFrom edges [] t = 0 := by
  unfold inFrom
  simp

theorem append_singleton_split {α : Type} (done l₁ l₂ : List α) (a b : α)
    (h : done ++ [a] = l₁ ++ b :: l₂) :
    (l₂ = [] ∧ l₁ = done ∧ b = a) ∨
    (∃ l₃, l₂ = l₃ ++ [a] ∧ done = l₁ ++ b :: l₃) := by
  rcases List.eq_nil_or_concat l₂ with hnil | ⟨l₃, c, hcat⟩
  · subst hnil
    obtain ⟨hdl, hab⟩ := List.append_inj' h rfl
    have hba : a = b := by injection hab
    exact Or.inl ⟨rfl, hdl.symm, hba.symm⟩
  · subst hcat
    have h2 : done ++ [a] = (l₁ ++ b :: l₃) ++ [c] := by
      rw [h]
      simp
    obtain ⟨hdl, hac⟩ := List.append_inj' h2 rfl
    have hca : a = c := by injection hac
    refine Or.inr ⟨l₃, ?_, hdl⟩
    rw [← hca]
    exact List.concat_eq_append _ _

theorem kahnInv_step (nodeIds : List String)
    (edges : List (String × String)) (done rest : List String)
    (nid : String) (inc : IncMap) (ts : List String)
    (hts : ts = (edges.filter (fun e => e.1 = nid)).map Prod.snd)
    (hwfE : ∀ e ∈ edges, e.1 ∈ nodeIds ∧ e.2 ∈ nodeIds)
    (hinv : KahnInv nodeIds edges done (nid :: rest) inc) :
    KahnInv nodeIds edges (done ++ [nid])
      ((ts.foldl relaxOne (inc, rest)).2)
      ((ts.foldl relaxOne (inc, rest)).1) := by
  have hnidq : nid ∈ nid :: rest := List.mem_cons_self _ _
  have hnidnd : nid ∉ done := hinv.disj nid hnidq
  have hcnt : ∀ x, ts.count x = cntE edges nid x := by
    intro x
    rw [hts]
    exact count_targets edges nid x
  have hinF : ∀ t, inFrom edges (done ++ [nid]) t =
      inFrom edges done t + cntE edges nid t :=
    fun t => inFrom_append_one edges done nid t hnidnd
  have hnn : ∀ w, 0 ≤ dget inc w 0 - ((ts.count w : Nat) : Int) := by
    intro w
    rw [hinv.incVal w, hcnt w]
    have h1 := inFrom_le edges (done ++ [nid]) w
    have h2 := hinF w
    omega
  have hmemH : ∀ x, x ∈ hitList ts inc ↔
      0 < ts.count x ∧ dget inc x 0 = ((ts.count x : Nat) : Int) :=
    fun x => hit_mem ts inc x hnn
  have hndH : (hitList ts inc).Nodup := hit_nodup ts inc hnn
  have hq2 : (ts.foldl relaxOne (inc, rest)).2 = rest ++ hitList ts inc :=
    fold_snd ts inc rest
  have hq1 : ∀ t, dget (ts.foldl relaxOne (inc, rest)).1 t 0 =
      dget inc t 0 - ((ts.count t : Nat) : Int) :=
    fun t => fold_fst_val ts inc rest t
  have hnidrest : nid ∉ rest := (List.nodup_cons.mp hinv.qNodup).1
  have hrestnd : rest.Nodup := (List.nodup_cons.mp hinv.qNodup).2
  have hHpos : ∀ x ∈ hitList ts inc,
      inFrom edges done x < indegE edges x := by
    intro x hx
    obtain ⟨hp, he⟩ := (hmemH x).mp hx
    rw [hinv.incVal x] at he
    omega
  have hHnotdone : ∀ x ∈ hitList ts inc, x ∉ done := by
    intro x hx hxd
    have h1 := hinv.doneZero x hxd
    have h2 := hHpos x hx
    omega
  have hHnotq : ∀ x ∈ hitList ts inc, x ∉ nid :: rest := by
    intro x hx hxq
    have h1 := hinv.qZero x hxq
    have h2 := hHpos x hx
    omega
  have hnidZ : inFrom edges done nid = indegE edges nid :=
    hinv.qZero nid hnidq
  refine ⟨?_, ?_, ?_, ?_, ?_, ?_, ?_, ?_, ?_, ?_⟩
  · rw [List.nodup_append]
    refine ⟨hinv.doneNodup, List.nodup_singleton _, ?_⟩
    intro a ha hb
    have haeq : a = nid := by simpa using hb
    subst haeq
    exact hnidnd ha
  · rw [hq2, List.nodup_append]
    refine ⟨hrestnd, hndH, ?_⟩
    intro a ha hb
    exact hHnotq a hb (List.mem_cons_of_mem _ ha)
  · intro x hx
    rw [hq2] at hx
    rcases List.mem_append.mp hx with hr | hH
    · intro hmem
      rcases List.mem_append.mp hmem with hd | hn
      · exact hinv.disj x (List.mem_cons_of_mem _ hr) hd
      · have hxeq : x = nid := by simpa using hn
        exact hnidrest (hxeq ▸ hr)
    · intro hmem
      rcases List.mem_append.mp hmem with hd | hn
      · exact hHnotdone x hH hd
      · have hxeq : x = nid := by simpa using hn
        exact hHnotq x hH (by rw [hxeq]; exact List.mem_cons_self _ _)
  · intro x hx
    rcases List.mem_append.mp hx with hd | hn
    · exact hinv.doneSub x hd
    · have hxeq : x = nid := by simpa using hn
      rw [hxeq]
      exact hinv.qSub nid hnidq
  · intro x hx
    rw [hq2] at hx
    rcases List.mem_append.mp hx with hr | hH
    · exact hinv.qSub x (List.mem_cons_of_mem _ hr)
    · obtain ⟨hp, -⟩ := (hmemH x).mp hH
      rw [hcnt x] at hp
      exact (hwfE (nid, x) (cnt_pos_mem edges nid x hp)).2
  · intro t
    rw [hq1 t, hinv.incVal t, hcnt t, hinF t]
    push_cast
    ring
  · intro t ht
    have hle := inFrom_le edges (done ++ [nid]) t
    rw [hinF t] at hle
    rw [hinF t]
    rcases List.mem_append.mp ht with hd | hn
    · have := hinv.doneZero t hd
      omega
    · have hteq : t = nid := by simpa using hn
      subst hteq
      omega
  · intro t ht
    rw [hq2] at ht
    have hle := inFrom_le edges (done ++ [nid]) t
    rw [hinF t] at hle
    rw [hinF t]
    rcases List.mem_append.mp ht with hr | hH
    · have := hinv.qZero t (List.mem_cons_of_mem _ hr)
      omega
    · obtain ⟨hp, he⟩ := (hmemH t).mp hH
      rw [hinv.incVal t, hcnt t] at he
      omega
  · intro t ht heq
    rw [hinF t] at heq
    by_cases hz : inFrom edges done t = indegE edges t
    · rcases hinv.zeroCov t ht hz with hd | hq
      · exact Or.inl (List.mem_append.mpr (Or.inl hd))
      · rcases List.mem_cons.mp hq with hn | hr
        · exact Or.inl (List.mem_append.mpr (Or.inr (by simp [hn])))
        · exact Or.inr (by
            rw [hq2]
            exact List.mem_append.mpr (Or.inl hr))
    · have hlt : inFrom edges done t < indegE edges t :=
        lt_of_le_of_ne (inFrom_le _ _ _) hz
      have hmem : t ∈ hitList ts inc := by
        rw [hmemH t]
        constructor
        · rw [hcnt t]
          omega
        · rw [hinv.incVal t, hcnt t]
          omega
      exact Or.inr (by
        rw [hq2]
        exact List.mem_append.mpr (Or.inr hmem))
  · intro e he l₁ l₂ hsplit
    rcases append_singleton_split done l₁ l₂ nid e.2 hsplit with
      ⟨-, hl1, hb⟩ | ⟨l₃, -, hdone⟩
    · rw [hl1]
      exact inFrom_eq_forall edges done nid hnidZ e he hb
    · exact hinv.orderOK e he l₁ l₃ hdone

/-! ### Running the loop to the end -/

theorem kahnRun_end (nodeIds : List String)
    (edges : List (String × String)) (outs : OutsMap)
    (houts : ∀ s, dget outs s [] =
      (edges.filter (fun e => e.1 = s)).map Prod.snd)
    (hwfE : ∀ e ∈ edges, e.1 ∈ nodeIds ∧ e.2 ∈ nodeIds) :
    ∀ (fuel : Nat) (done q : List String) (inc : IncMap),
    KahnInv nodeIds edges done q inc →
    q.length + posCount inc < fuel →
    KahnEnd nodeIds edges (done ++ kahnRun outs fuel inc q) := by
  intro fuel
  induction fuel with
  | zero =>
      intro done q inc hinv hlt
      omega
  | succ f ih =>
      intro done q inc hinv hlt
      cases q with
      | nil =>
          have hrun : kahnRun outs (f + 1) inc [] = [] := rfl
          rw [hrun, List.append_nil]
          refine ⟨hinv.doneNodup, hinv.doneSub, hinv.orderOK, ?_⟩
          intro t ht heq
          rcases hinv.zeroCov t ht heq with h | h
          · exact h
          · simp at h
      | cons nid rest =>
          have hrun : kahnRun outs (f + 1) inc (nid :: rest) =
              nid :: kahnRun outs f
                (((dget outs nid []).foldl relaxOne (inc, rest)).1)
                (((dget outs nid []).foldl relaxOne (inc, rest)).2) := rfl
          rw [hrun]
          have hasc : done ++ nid :: kahnRun outs f
              (((dget outs nid []).foldl relaxOne (inc, rest)).1)
              (((dget outs nid []).foldl relaxOne (inc, rest)).2) =
            (done ++ [nid]) ++ kahnRun outs f
              (((dget outs nid []).foldl relaxOne (inc, rest)).1)
              (((dget outs nid []).foldl relaxOne (inc, rest)).2) := by
            simp
          rw [hasc]
          apply ih
          · exact kahnInv_step nodeIds edges done rest nid inc
              (dget outs nid []) (houts nid) hwfE hinv
          · have hm : (List.foldl relaxOne (inc, rest)
                  (dget outs nid [])).2.length +
                posCount (List.foldl relaxOne (inc, rest)
                  (dget outs nid [])).1 ≤
                rest.length + posCount inc :=
              measure_fold (dget outs nid []) (inc, rest)
            simp only [List.length_cons] at hlt
            omega

/-! ### The two initial states -/

theorem topo_sort_inv_init (nodeIds : List String)
    (edges : List (String × String)) (hnd : nodeIds.Nodup) :
    KahnInv nodeIds edges []
      (nodeIds.filter (fun n => dget (topoCore nodeIds edges).1 n 0 = 0))
      (topoCore nodeIds edges).1 := by
  refine ⟨List.nodup_nil, hnd.filter _, ?_, ?_, ?_, ?_, ?_, ?_, ?_, ?_⟩
  · intro x hx
    simp
  · intro x hx
    simp at hx
  · intro x hx
    exact (List.mem_filter.mp hx).1
  · intro t
    rw [inc_val_core, inFrom_nil]
    simp
  · intro t ht
    simp at ht
  · intro t ht
    have hz := (List.mem_filter.mp ht).2
    simp only [decide_eq_true_eq] at hz
    rw [inc_val_core] at hz
    rw [inFrom_nil]
    omega
  · intro t ht heq
    rw [inFrom_nil] at heq
    refine Or.inr (List.mem_filter.mpr ⟨ht, ?_⟩)
    simp only [decide_eq_true_eq]
    rw [inc_val_core]
    omega
  · intro e he l₁ l₂ hsplit
    cases l₁ <;> simp at hsplit

theorem opt_topo_inv_init (nodeIds : List String)
    (edges : List (String × String))
    (hwfE : ∀ e ∈ edges, e.1 ∈ nodeIds ∧ e.2 ∈ nodeIds) :
    KahnInv nodeIds edges []
      (((topoCore nodeIds edges).1.filter (fun p => p.2 = 0)).map Prod.fst)
      (topoCore nodeIds edges).1 := by
  have hndk := nodup_dkeys_core nodeIds edges
  have hsub : List.Sublist
      (((topoCore nodeIds edges).1.filter
        (fun p => p.2 = 0)).map Prod.fst)
      (dkeys (topoCore nodeIds edges).1) :=
    List.Sublist.map Prod.fst (List.filter_sublist _)
  refine ⟨List.nodup_nil, List.Nodup.sublist hsub hndk,
    ?_, ?_, ?_, ?_, ?_, ?_, ?_, ?_⟩
  · intro x hx
    simp
  · intro x hx
    simp at hx
  · intro x hx
    obtain ⟨p, hp, hfst⟩ := List.mem_map.mp hx
    obtain ⟨hpmem, -⟩ := List.mem_filter.mp hp
    have hkey : x ∈ dkeys (topoCore nodeIds edges).1 := by
      rw [← hfst]
      exact List.mem_map.mpr ⟨p, hpmem, rfl⟩
    rcases (mem_dkeys_core nodeIds edges x).mp hkey with h | ⟨e, he, hx2⟩
    · exact h
    · rw [← hx2]
      exact (hwfE e he).2
  · intro t
    rw [inc_val_core, inFrom_nil]
    simp
  · intro t ht
    simp at ht
  · intro t ht
    obtain ⟨p, hp, hfst⟩ := List.mem_map.mp ht
    obtain ⟨hpmem, hpz⟩ := List.mem_filter.mp hp
    simp only [decide_eq_true_eq] at hpz
    rcases p with ⟨k, v⟩
    simp only at hfst hpz
    subst hpz
    have hget : dget (topoCore nodeIds edges).1 k 0 = 0 :=
      mem_dget _ k 0 0 hndk hpmem
    rw [inc_val_core] at hget
    rw [← hfst, inFrom_nil]
    omega
  · intro t ht heq
    rw [inFrom_nil] at heq
    have hget : dget (topoCore nodeIds edges).1 t 0 = 0 := by
      rw [inc_val_core]
      omega
    have hkey : t ∈ dkeys (topoCore nodeIds edges).1 :=
      (mem_dkeys_core nodeIds edges t).mpr (Or.inl ht)
    have hent : (t, (0 : Int)) ∈ (topoCore nodeIds edges).1 := by
      have := dget_mem (topoCore nodeIds edges).1 t 0 hkey
      rw [hget] at this
      exact this
    refine Or.inr (List.mem_map.mpr ⟨(t, 0), ?_, rfl⟩)
    exact List.mem_filter.mpr ⟨hent, by simp⟩
  · intro e he l₁ l₂ hsplit
    cases l₁ <;> simp at hsplit

/-! ### Cycles, ranks and the edge-order property of a finished run -/

theorem split_eq_of_not_mem {α : Type} (b : α) :
    ∀ (x₁ x₂ y₁ y₂ : List α), b ∉ x₁ → b ∉ x₂ →
    x₁ ++ b :: y₁ = x₂ ++ b :: y₂ → x₁ = x₂ ∧ y₁ = y₂ := by
  intro x₁
  induction x₁ with
  | nil =>
      intro x₂ y₁ y₂ h1 h2 heq
      cases x₂ with
      | nil =>
          simp only [List.nil_append] at heq
          injection heq with hb htl
          exact ⟨rfl, htl⟩
      | cons w x₂' =>
          simp only [List.nil_append, List.cons_append] at heq
          injection heq with hb htl
          exact absurd (by rw [hb]; exact List.mem_cons_self _ _) h2
  | cons z x₁' ih =>
      intro x₂ y₁ y₂ h1 h2 heq
      cases x₂ with
      | nil =>
          simp only [List.cons_append, List.nil_append] at heq
          injection heq with hb htl
          exact absurd (by rw [← hb]; exact List.mem_cons_self _ _) h1
      | cons w x₂' =>
          simp only [List.cons_append] at heq
          injection heq with hzw htl
          have h1' : b ∉ x₁' := fun hh => h1 (List.mem_cons_of_mem _ hh)
          have h2' : b ∉ x₂' := fun hh => h2 (List.mem_cons_of_mem _ hh)
          obtain ⟨he, hy⟩ := ih x₂' y₁ y₂ h1' h2' htl
          exact ⟨by rw [hzw, he], hy⟩

theorem not_mem_left_of_nodup_split {α : Type} (l x y : List α) (b : α)
    (hnd : l.Nodup) (h : l = x ++ b :: y) : b ∉ x := by
  rw [h, List.nodup_append] at hnd
  intro hb
  exact hnd.2.2 hb (List.mem_cons_self _ _)

theorem rp_before (edges : List (String × String)) (out : List String)
    (hnd : out.Nodup)
    (hord : ∀ e ∈ edges, ∀ l₁ l₂, out = l₁ ++ e.2 :: l₂ → e.1 ∈ l₁) :
    ∀ a b, ReachPlus edges a b → b ∈ out →
    a ∈ out ∧ ∃ l₁ l₂, out = l₁ ++ b :: l₂ ∧ a ∈ l₁ := by
  intro a b hrp
  induction hrp with
  | @single a b hab =>
      intro hbout
      obtain ⟨l₁, l₂, hsplit⟩ := List.append_of_mem hbout
      have ha := hord (a, b) hab l₁ l₂ hsplit
      exact ⟨hsplit ▸ List.mem_append.mpr (Or.inl ha), l₁, l₂, hsplit, ha⟩
  | @cons a b c hab hbc ih =>
      intro hcout
      obtain ⟨hbout, l₁, l₂, hsplit, hbl₁⟩ := ih hcout
      obtain ⟨m₁, m₂, hsplit2⟩ := List.append_of_mem hbout
      have ham := hord (a, b) hab m₁ m₂ hsplit2
      obtain ⟨p, s, hps⟩ := List.append_of_mem hbl₁
      have hout2 : out = p ++ b :: (s ++ c :: l₂) := by
        rw [hsplit, hps]
        simp
      have hbm : b ∉ m₁ := not_mem_left_of_nodup_split out m₁ m₂ b hnd hsplit2
      have hbp : b ∉ p :=
        not_mem_left_of_nodup_split out p (s ++ c :: l₂) b hnd hout2
      obtain ⟨hmp, -⟩ := split_eq_of_not_mem b m₁ p m₂ (s ++ c :: l₂) hbm hbp
        (by rw [← hsplit2]; exact hout2)
      refine ⟨hsplit2 ▸ List.mem_append.mpr (Or.inl ham), l₁, l₂, hsplit, ?_⟩
      rw [hps]
      exact List.mem_append.mpr (Or.inl (hmp ▸ ham))

theorem exists_min_rank {α : Type} (f : α → Nat) :
    ∀ (l : List α), l ≠ [] → ∃ m ∈ l, ∀ x ∈ l, f m ≤ f x := by
  intro l
  induction l with
  | nil => intro h; exact absurd rfl h
  | cons a rest ih =>
      intro _
      cases rest with
      | nil =>
          refine ⟨a, List.mem_cons_self _ _, ?_⟩
          intro x hx
          have hxa : x = a := by simpa using hx
          rw [hxa]
      | cons b rest' =>
          obtain ⟨m, hm, hmin⟩ := ih (by simp)
          by_cases hcmp : f a ≤ f m
          · refine ⟨a, List.mem_cons_self _ _, ?_⟩
            intro x hx
            rcases List.mem_cons.mp hx with h | h
            · rw [h]
            · exact le_trans hcmp (hmin x h)
          · refine ⟨m, List.mem_cons_of_mem _ hm, ?_⟩
            intro x hx
            rcases List.mem_cons.mp hx with h | h
            · rw [h]; omega
            · exact hmin x h

theorem kahnEnd_complete (nodeIds : List String)
    (edges : List (String × String)) (out : List String)
    (hend : KahnEnd nodeIds edges out)
    (hwfE : ∀ e ∈ edges, e.1 ∈ nodeIds ∧ e.2 ∈ nodeIds)
    (hacyc : Acyclic edges) :
    ∀ t ∈ nodeIds, t ∈ out := by
  obtain ⟨rank, hrank⟩ := hacyc
  by_contra hcon
  push_neg at hcon
  obtain ⟨t0, ht0, ht0o⟩ := hcon
  have hne : nodeIds.filter (fun x => decide (x ∉ out)) ≠ [] := by
    intro hnil
    have hmem : t0 ∈ nodeIds.filter (fun x => decide (x ∉ out)) :=
      List.mem_filter.mpr ⟨ht0, by simp [ht0o]⟩
    rw [hnil] at hmem
    simp at hmem
  obtain ⟨m, hmmem, hmmin⟩ :=
    exists_min_rank rank (nodeIds.filter (fun x => decide (x ∉ out))) hne
  have hmnode : m ∈ nodeIds := (List.mem_filter.mp hmmem).1
  have hmout : m ∉ out := by
    have := (List.mem_filter.mp hmmem).2
    simpa using this
  have hall : ∀ e ∈ edges, e.2 = m → e.1 ∈ out := by
    intro e he he2
    by_contra heo
    have h1n : e.1 ∈ nodeIds := (hwfE e he).1
    have h1m : e.1 ∈ nodeIds.filter (fun x => decide (x ∉ out)) :=
      List.mem_filter.mpr ⟨h1n, by simp [heo]⟩
    have hge := hmmin e.1 h1m
    have hlt := hrank e he
    rw [he2] at hlt
    omega
  exact hmout (hend.2.2.2 m hmnode (forall_inFrom_eq edges out m hall))

theorem kahnEnd_acyclic_order (nodeIds : List String)
    (edges : List (String × String)) (out : List String)
    (hend : KahnEnd nodeIds edges out)
    (hwfE : ∀ e ∈ edges, e.1 ∈ nodeIds ∧ e.2 ∈ nodeIds)
    (hacyc : Acyclic edges) :
    ∀ e ∈ edges, ∃ l₁ l₂, out = l₁ ++ e.2 :: l₂ ∧ e.1 ∈ l₁ := by
  intro e he
  have h2out : e.2 ∈ out :=
    kahnEnd_complete nodeIds edges out hend hwfE hacyc e.2 (hwfE e he).2
  obtain ⟨l₁, l₂, hsplit⟩ := List.append_of_mem h2out
  exact ⟨l₁, l₂, hsplit, hend.2.2.1 e he l₁ l₂ hsplit⟩

theorem kahnEnd_acyclic_complete_len (nodeIds : List String)
    (edges : List (String × String)) (out : List String)
    (hend : KahnEnd nodeIds edges out) (hnd : nodeIds.Nodup)
    (hwfE : ∀ e ∈ edges, e.1 ∈ nodeIds ∧ e.2 ∈ nodeIds)
    (hacyc : Acyclic edges) :
    out.length = nodeIds.length := by
  have hcompl := kahnEnd_complete nodeIds edges out hend hwfE hacyc
  have h1 : List.Subperm out nodeIds := hend.1.subperm hend.2.1
  have h2 : List.Subperm nodeIds out := hnd.subperm hcompl
  exact le_antisymm h1.length_le h2.length_le

theorem kahnEnd_cycle_incomplete (nodeIds : List String)
    (edges : List (String × String)) (out : List String)
    (hend : KahnEnd nodeIds edges out) (hnd : nodeIds.Nodup)
    (hwfE : ∀ e ∈ edges, e.1 ∈ nodeIds ∧ e.2 ∈ nodeIds)
    (hcyc : ∃ x, ReachPlus edges x x) :
    out.length ≠ nodeIds.length := by
  intro hlen
  obtain ⟨x, hrp⟩ := hcyc
  have hxedge : ∃ b, (x, b) ∈ edges := by
    cases hrp with
    | single h => exact ⟨_, h⟩
    | cons h _ => exact ⟨_, h⟩
  obtain ⟨b, hxb⟩ := hxedge
  have hxnode : x ∈ nodeIds := (hwfE (x, b) hxb).1
  have hsubp : List.Subperm out nodeIds := hend.1.subperm hend.2.1
  have hperm : out.Perm nodeIds := hsubp.perm_of_length_le (le_of_eq hlen.symm)
  have hxout : x ∈ out := hperm.mem_iff.mpr hxnode
  obtain ⟨-, l₁, l₂, hsplit, hxl₁⟩ :=
    rp_before edges out hend.1 hend.2.2.1 x x hrp hxout
  exact not_mem_left_of_nodup_split out l₁ l₂ x hend.1 hsplit hxl₁

/-! ### `Acyclic` is exactly cycle-freeness (on well-formed graphs) -/

theorem rank_lt_of_rp (edges : List (String × String)) (rank : String → Nat)
    (hrank : ∀ e ∈ edges, rank e.1 < rank e.2) :
    ∀ a b, ReachPlus edges a b → rank a < rank b := by
  intro a b h
  induction h with
  | single hab => exact hrank _ hab
  | cons hab hbc ih => exact lt_trans (hrank _ hab) ih

theorem no_cycle_of_acyclic (edges : List (String × String))
    (h : Acyclic edges) : ¬∃ x, ReachPlus edges x x := by
  obtain ⟨rank, hrank⟩ := h
  rintro ⟨x, hx⟩
  exact lt_irrefl _ (rank_lt_of_rp edges rank hrank x x hx)

theorem reachTo_snoc (edges : List (String × String)) (a b x : String)
    (h : ReachTo edges a x) (hab : (a, b) ∈ edges) :
    ReachTo edges b x := by
  induction h with
  | refl => exact ReachTo.head hab ReachTo.refl
  | head hcd hd ih => exact ReachTo.head hcd ih

theorem rp_of_reachTo (edges : List (String × String)) (t x : String)
    (h : ReachTo edges t x) : x = t ∨ ReachPlus edges x t := by
  induction h with
  | refl => exact Or.inl rfl
  | @head a b hab hbt ih =>
      rcases ih with heq | hrp
      · exact Or.inr (heq ▸ ReachPlus.single hab)
      · exact Or.inr (ReachPlus.cons hab hrp)

theorem rp_snoc (edges : List (String × String)) (a b c : String)
    (h : ReachPlus edges a b) (hbc : (b, c) ∈ edges) :
    ReachPlus edges a c := by
  induction h with
  | single hab => exact ReachPlus.cons hab (ReachPlus.single hbc)
  | cons hab hbd ih => exact ReachPlus.cons hab (ih hbc)

theorem acyclic_of_no_cycle (nodeIds : List String)
    (edges : List (String × String))
    (hwfE : ∀ e ∈ edges, e.1 ∈ nodeIds ∧ e.2 ∈ nodeIds)
    (hnc : ¬∃ x, ReachPlus edges x x) : Acyclic edges := by
  classical
  refine ⟨fun x =>
    (nodeIds.toFinset.filter (fun s => ReachTo edges x s)).card, ?_⟩
  intro e he
  have hsub : nodeIds.toFinset.filter (fun s => ReachTo edges e.1 s) ⊆
      nodeIds.toFinset.filter (fun s => ReachTo edges e.2 s) := by
    intro s hs
    rw [Finset.mem_filter] at hs ⊢
    exact ⟨hs.1, reachTo_snoc edges e.1 e.2 s hs.2 he⟩
  have hmem : e.2 ∈ nodeIds.toFinset.filter
      (fun s => ReachTo edges e.2 s) := by
    rw [Finset.mem_filter]
    exact ⟨List.mem_toFinset.mpr (hwfE e he).2, ReachTo.refl⟩
  have hnot : e.2 ∉ nodeIds.toFinset.filter
      (fun s => ReachTo edges e.1 s) := by
    rw [Finset.mem_filter]
    rintro ⟨-, hreach⟩
    rcases rp_of_reachTo edges e.1 e.2 hreach with heq | hrp
    · apply hnc
      have hpair : (e.1, e.2) = e := rfl
      rw [heq] at hpair
      exact ⟨e.1, ReachPlus.single (by rw [hpair]; exact he)⟩
    · apply hnc
      exact ⟨e.2, rp_snoc edges e.2 e.1 e.2 hrp he⟩
  exact Finset.card_lt_card
    ((Finset.ssubset_iff_of_subset hsub).mpr ⟨e.2, hmem, hnot⟩)

/-! ### Assembling the two functions' runs -/

theorem kahn_result (nodeIds : List String)
    (edges : List (String × String)) (q : List String)
    (hinv : KahnInv nodeIds edges [] q (topoCore nodeIds edges).1)
    (hwfE : ∀ e ∈ edges, e.1 ∈ nodeIds ∧ e.2 ∈ nodeIds) :
    KahnEnd nodeIds edges
      (kahnRun (topoCore nodeIds edges).2
        (q.length + posCount (topoCore nodeIds edges).1 + 1)
        (topoCore nodeIds edges).1 q) := by
  have h := kahnRun_end nodeIds edges (topoCore nodeIds edges).2
    (outs_val_core nodeIds edges) hwfE
    (q.length + posCount (topoCore nodeIds edges).1 + 1) [] q
    (topoCore nodeIds edges).1 hinv (by omega)
  simpa using h

theorem topo_sort_def (nodeIds : List String)
    (edges : List (String × String)) :
    topo_sort nodeIds edges =
      (if (kahnRun (topoCore nodeIds edges).2
            ((nodeIds.filter
                (fun n => dget (topoCore nodeIds edges).1 n 0 = 0)).length +
              posCount (topoCore nodeIds edges).1 + 1)
            (topoCore nodeIds edges).1
            (nodeIds.filter
              (fun n => dget (topoCore nodeIds edges).1 n 0 = 0))).length ≠
          nodeIds.length
       then nodeIds
       else kahnRun (topoCore nodeIds edges).2
            ((nodeIds.filter
                (fun n => dget (topoCore nodeIds edges).1 n 0 = 0)).length +
              posCount (topoCore nodeIds edges).1 + 1)
            (topoCore nodeIds edges).1
            (nodeIds.filter
              (fun n => dget (topoCore nodeIds edges).1 n 0 = 0))) := rfl

theorem opt_topo_def (nodeIds : List String)
    (edges : List (String × String)) :
    opt_topo nodeIds edges =
      (if (kahnRun (topoCore nodeIds edges).2
            ((((topoCore nodeIds edges).1.filter
                (fun p => p.2 = 0)).map Prod.fst).length +
              posCount (topoCore nodeIds edges).1 + 1)
            (topoCore nodeIds edges).1
            (((topoCore nodeIds edges).1.filter
              (fun p => p.2 = 0)).map Prod.fst)).length = nodeIds.length
       then kahnRun (topoCore nodeIds edges).2
            ((((topoCore nodeIds edges).1.filter
                (fun p => p.2 = 0)).map Prod.fst).length +
              posCount (topoCore nodeIds edges).1 + 1)
            (topoCore nodeIds edges).1
            (((topoCore nodeIds edges).1.filter
              (fun p => p.2 = 0)).map Prod.fst)
       else nodeIds) := rfl

/-! ### The two initial queues coincide on graphs with duplicate-free
node ids whose edge targets are nodes -/

theorem dkeys_dset_not_mem {β : Type} (d : List (String × β)) (k : String)
    (v : β) (h : k ∉ dkeys d) : dkeys (dset d k v) = dkeys d ++ [k] := by
  induction d with
  | nil => simp [dset, dkeys]
  | cons p rest ih =>
      obtain ⟨k', v'⟩ := p
      simp only [dkeys, List.map_cons, List.mem_cons] at h
      push_neg at h
      obtain ⟨h1, h2⟩ := h
      simp only [dset]
      rw [if_neg (fun hh : k' = k => h1 hh.symm)]
      simp only [dkeys, List.map_cons, List.cons_append]
      have hih := ih h2
      simp only [dkeys] at hih
      rw [hih]

theorem dkeys_dset_mem {β : Type} (d : List (String × β)) (k : String)
    (v : β) (h : k ∈ dkeys d) : dkeys (dset d k v) = dkeys d := by
  induction d with
  | nil => simp [dkeys] at h
  | cons p rest ih =>
      obtain ⟨k', v'⟩ := p
      simp only [dset]
      by_cases hkk : k' = k
      · rw [if_pos hkk]
        simp [dkeys, hkk]
      · rw [if_neg hkk]
        simp only [dkeys, List.map_cons]
        simp only [dkeys, List.map_cons, List.mem_cons] at h
        rcases h with h | h
        · exact absurd h.symm hkk
        · have hih := ih h
          simp only [dkeys] at hih
          rw [hih]

theorem dkeys_zero_fold_eq (ns : List String) :
    ∀ (d : IncMap), (∀ n ∈ ns, n ∉ dkeys d) → ns.Nodup →
    dkeys (ns.foldl (fun d n => dset d n (0 : Int)) d) = dkeys d ++ ns := by
  induction ns with
  | nil => intro d h hnd; simp
  | cons n rest ih =>
      intro d h hnd
      simp only [List.foldl_cons]
      have hkeys : dkeys (dset d n 0) = dkeys d ++ [n] :=
        dkeys_dset_not_mem d n 0 (h n (List.mem_cons_self _ _))
      rw [ih (dset d n 0) ?side ((List.nodup_cons.mp hnd).2), hkeys]
      · simp
      case side =>
        intro m hm
        rw [hkeys]
        intro hmem
        rcases List.mem_append.mp hmem with hh | hh
        · exact h m (List.mem_cons_of_mem _ hm) hh
        · have : m = n := by simpa using hh
          exact (List.nodup_cons.mp hnd).1 (this ▸ hm)

theorem dkeys_inc_fold_eq (edges : List (String × String)) :
    ∀ (d : IncMap), (∀ e ∈ edges, e.2 ∈ dkeys d) →
    dkeys (edges.foldl (fun d e => dset d e.2 (dget d e.2 0 + 1)) d) =
      dkeys d := by
  induction edges with
  | nil => intro d h; rfl
  | cons e rest ih =>
      intro d h
      simp only [List.foldl_cons]
      have hkeys : dkeys (dset d e.2 (dget d e.2 0 + 1)) = dkeys d :=
        dkeys_dset_mem d e.2 _ (h e (List.mem_cons_self _ _))
      rw [ih _ ?side, hkeys]
      case side =>
        intro e' he'
        rw [hkeys]
        exact h e' (List.mem_cons_of_mem _ he')

theorem dkeys_core_eq (nodeIds : List String)
    (edges : List (String × String)) (hnd : nodeIds.Nodup)
    (hwfT : ∀ e ∈ edges, e.2 ∈ nodeIds) :
    dkeys (topoCore nodeIds edges).1 = nodeIds := by
  unfold topoCore
  simp only
  have h0 : dkeys (nodeIds.foldl (fun d n => dset d n (0 : Int)) []) =
      nodeIds := by
    have := dkeys_zero_fold_eq nodeIds [] (by simp [dkeys]) hnd
    simpa using this
  rw [dkeys_inc_fold_eq edges _ (fun e he => by rw [h0]; exact hwfT e he), h0]

theorem filter_map_eq (d : IncMap) (hnd : (dkeys d).Nodup) :
    (d.filter (fun p => p.2 = 0)).map Prod.fst =
    (dkeys d).filter (fun k => dget d k 0 = 0) := by
  induction d with
  | nil => rfl
  | cons p rest ih =>
      obtain ⟨k, v⟩ := p
      simp only [dkeys, List.map_cons, List.nodup_cons] at hnd
      obtain ⟨hk, hrest⟩ := hnd
      have hgk : dget ((k, v) :: rest) k 0 = v := by
        simp [dget]
      have hpred : ∀ k' ∈ (rest.map Prod.fst),
          (decide (dget ((k, v) :: rest) k' 0 = 0)) =
          (decide (dget rest k' 0 = 0)) := by
        intro k' hk'
        have hne : k ≠ k' := fun hh => hk (hh ▸ hk')
        simp only [dget]
        simp only [if_neg hne]
      simp only [List.filter_cons, dkeys, List.map_cons]
      by_cases hv : v = 0
      · have hc1 : (decide ((k, v).2 = 0)) = true := by simp [hv]
        have hc2 : (decide (dget ((k, v) :: rest) k 0 = 0)) = true := by
          simp [dget, hv]
        rw [hc1, hc2, if_pos rfl, if_pos rfl]
        simp only [List.map_cons]
        rw [ih hrest]
        exact congrArg (List.cons k)
          (List.filter_congr hpred).symm
      · have hc1 : (decide ((k, v).2 = 0)) = false := by
          simp only [decide_eq_false_iff_not]
          exact hv
        have hc2 : (decide (dget ((k, v) :: rest) k 0 = 0)) = false := by
          simp only [decide_eq_false_iff_not]
          rw [hgk]
          exact hv
        rw [hc1, hc2, if_neg Bool.false_ne_true, if_neg Bool.false_ne_true]
        rw [ih hrest]
        exact (List.filter_congr hpred).symm

theorem topo_impls_eq (nodeIds : List String)
    (edges : List (String × String)) (hnd : nodeIds.Nodup)
    (hwfT : ∀ e ∈ edges, e.2 ∈ nodeIds) :
    opt_topo nodeIds edges = topo_sort nodeIds edges := by
  have hq : ((topoCore nodeIds edges).1.filter
      (fun p => p.2 = 0)).map Prod.fst =
      nodeIds.filter (fun n => dget (topoCore nodeIds edges).1 n 0 = 0) := by
    rw [filter_map_eq _ (nodup_dkeys_core nodeIds edges)]
    rw [dkeys_core_eq nodeIds edges hnd hwfT]
  rw [opt_topo_def, topo_sort_def, hq]
  split_ifs with h1 h2 <;>
    first
      | rfl
      | (exact absurd h1 h2)
      | (exact absurd (not_not.mp h2) h1)

/-- C3: on a graph whose node ids are duplicate-free and whose edges
join nodes, both topological sorts (`topo_sort` from `src/server.py`
and `_topo` from `src/optimizer.py`) place each edge's source strictly
before its target whenever the graph has no cycle, and return the
caller's node order verbatim whenever the graph has a cycle; the output
is a deterministic function of the caller's node order by construction. -/
theorem topo_order_correct (nodeIds : List String)
    (edges : List (String × String)) :
    nodeIds.Nodup →
    (∀ e ∈ edges, e.1 ∈ nodeIds ∧ e.2 ∈ nodeIds) →
    (((¬∃ x, ReachPlus edges x x) →
        (∀ e ∈ edges, ∃ l₁ l₂,
          topo_sort nodeIds edges = l₁ ++ e.2 :: l₂ ∧ e.1 ∈ l₁) ∧
        (∀ e ∈ edges, ∃ l₁ l₂,
          opt_topo nodeIds edges = l₁ ++ e.2 :: l₂ ∧ e.1 ∈ l₁)) ∧
     ((∃ x, ReachPlus edges x x) →
        topo_sort nodeIds edges = nodeIds ∧
        opt_topo nodeIds edges = nodeIds)) := by
  intro hnd hwfE
  have hendS := kahn_result nodeIds edges _
    (topo_sort_inv_init nodeIds edges hnd) hwfE
  have hendO := kahn_result nodeIds edges _
    (opt_topo_inv_init nodeIds edges hwfE) hwfE
  constructor
  · intro hnc
    have hacyc := acyclic_of_no_cycle nodeIds edges hwfE hnc
    have hlenS := kahnEnd_acyclic_complete_len nodeIds edges _
      hendS hnd hwfE hacyc
    have hlenO := kahnEnd_acyclic_complete_len nodeIds edges _
      hendO hnd hwfE hacyc
    constructor
    · intro e he
      have h := kahnEnd_acyclic_order nodeIds edges _ hendS hwfE hacyc e he
      rw [topo_sort_def nodeIds edges, if_neg (not_not_intro hlenS)]
      exact h
    · intro e he
      have h := kahnEnd_acyclic_order nodeIds edges _ hendO hwfE hacyc e he
      rw [opt_topo_def nodeIds edges, if_pos hlenO]
      exact h
  · intro hcyc
    have hneS := kahnEnd_cycle_incomplete nodeIds edges _
      hendS hnd hwfE hcyc
    have hneO := kahnEnd_cycle_incomplete nodeIds edges _
      hendO hnd hwfE hcyc
    constructor
    · rw [topo_sort_def nodeIds edges, if_pos hneS]
    · rw [opt_topo_def nodeIds edges, if_neg hneO]

/-- Witness for C3 at the acyclic two-node chain a → b. -/
theorem topo_order_correct_witness :
    (∃ l₁ l₂, topo_sort ["a", "b"] [("a", "b")] =
      l₁ ++ "b" :: l₂ ∧ "a" ∈ l₁) ∧
    (∃ l₁ l₂, opt_topo ["a", "b"] [("a", "b")] =
      l₁ ++ "b" :: l₂ ∧ "a" ∈ l₁) := by
  have h := topo_order_correct ["a", "b"] [("a", "b")]
    (by decide) (by decide)
  have h1 := h.1 (no_cycle_of_acyclic _
    ⟨fun s => if s = "a" then 0 else 1, by decide⟩)
  exact ⟨h1.1 ("a", "b") (by decide), h1.2 ("a", "b") (by decide)⟩

/-- C10 (amended): the optimizer's `_topo` and the server's `topo_sort`
return the same sequence on every graph whose node ids are
duplicate-free and whose edges join nodes; with a duplicated node id
the two initial queues differ and the implementations can disagree. -/
theorem topo_impls_agree_on_wf (nodeIds : List String)
    (edges : List (String × String)) (hnd : nodeIds.Nodup)
    (hwfE : ∀ e ∈ edges, e.1 ∈ nodeIds ∧ e.2 ∈ nodeIds) :
    opt_topo nodeIds edges = topo_sort nodeIds edges :=
  topo_impls_eq nodeIds edges hnd (fun e he => (hwfE e he).2)

/-- Witness for C10's amended statement at the two-node chain a → b. -/
theorem topo_impls_agree_witness :
    opt_topo ["a", "b"] [("a", "b")] = topo_sort ["a", "b"] [("a", "b")] :=
  topo_impls_agree_on_wf ["a", "b"] [("a", "b")] (by decide) (by decide)

/-- Counterexample to C10 as stated: with the duplicated node id "A"
the optimizer's sweep (queue seeded from the dict's deduplicated keys)
comes up short and falls back to the input order, while the server's
sweep (queue seeded from the node list itself) emits three ids and
keeps them — the two functions return different sequences. -/
theorem topo_impls_differ_cex :
    opt_topo ["A", "B", "A"] [("A", "B")] = ["A", "B", "A"] ∧
    topo_sort ["A", "B", "A"] [("A", "B")] = ["A", "A", "B"] ∧
    opt_topo ["A", "B", "A"] [("A", "B")] ≠
      topo_sort ["A", "B", "A"] [("A", "B")] := by
  decide

end ETL
